import Mathlib

/-! # Classical cipher transforms of `en(de)-cryptor.cpp`

A shallow embedding of the six transforms of the program (Caesar, XOR,
multi-alphabet, transposition, Vigenère, Playfair) and of the Playfair table
builder, with the properties the specification states about them.

Conventions of the embedding.

* A `char` is modelled by its byte value, `Fin 256` (what
  `static_cast<unsigned char>(c)` yields). Every arithmetic expression of the
  source is an `int` expression and is modelled in `Int`; storing an `int`
  into a `char` keeps the value modulo 256 (`toChar`).
* The C++ operator `%` truncates toward zero: `cRem`.
* `main` calls `std::setlocale(LC_ALL, "")` (line 533) and, on Windows, sets
  code page 1251 (lines 535-536), so `std::isupper`, `std::islower`,
  `std::isalpha` and `std::toupper` are those of the locale of the environment.
  They are modelled with a parameter `pf : Platform`: every locale treats the
  bytes below 128 as the "C" locale does, and the parameter gives the classes
  and the upper-case forms of the bytes from 128 on, the upper-case form of
  such a byte being such a byte again (so it is in the "C" locale, in UTF-8 and
  in code page 1251). The parameter also says whether plain `char` is signed,
  which is what `c - base` reads for such a byte. `cLocale` and `cp1251` are
  two values of the parameter.
* `mode == 1` is `Mode.encrypt`, `mode == 2` is `Mode.decrypt`; no other value
  of `mode` reaches a transform.
* A `std::string` is a `List Byte`. Each menu function is modelled by the
  `result` string it computes from the values it has read (mode, text, key);
  the prompts and the printing are left out.
* Loop counters (`i`, `j`, `keyPos`) are natural numbers: they start at 0 and
  only grow, and a text of more than `INT_MAX` characters is not considered.
-/

set_option maxRecDepth 100000

namespace Cryptor

/-! ## Characters and C arithmetic -/

/-- One C++ `char`, as the value of `static_cast<unsigned char>(c)`. -/
abbrev Byte := Fin 256

/-- The two values of `mode` for which a menu runs its transform. -/
inductive Mode where
  | encrypt
  | decrypt
  deriving DecidableEq, Repr

/-- The failure of a request: the keyword was empty (`key.empty()`), the menu
prints its message and computes no result. -/
inductive CipherError where
  | invalidKey
  deriving DecidableEq, Repr

/-- The outcome of one pass of a menu that takes a keyword: the keyword is
rejected, or `result` is computed; `undefinedRead` stands for a read outside a
string (`seq[k]` with `k` not below `seq.size()`), whose behaviour C++ leaves
undefined. -/
inductive Outcome where
  | rejected (e : CipherError)
  | undefinedRead
  | result (out : List Byte)
  deriving DecidableEq, Repr

/-- The C++ `%` on `int`: the remainder of the division truncated toward zero. -/
def cRem (a b : Int) : Int := Int.tmod a b

/-- Storing an `int` into a `char`: the value modulo 256. -/
def toChar (x : Int) : Byte := ⟨(x % 256).toNat, by omega⟩

/-- The byte is one of the ASCII letters `A..Z`. -/
def asciiUpper (c : Byte) : Bool := decide (65 ≤ c.val) && decide (c.val ≤ 90)

/-- The byte is one of the ASCII letters `a..z`. -/
def asciiLower (c : Byte) : Bool := decide (97 ≤ c.val) && decide (c.val ≤ 122)

/-- The byte is an ASCII letter, `A..Z` or `a..z`. -/
def asciiLetter (c : Byte) : Bool := asciiUpper c || asciiLower c

/-- The upper-case form of a byte below 128: `a..z` go to `A..Z`, any other
byte to itself. -/
def asciiToupper (c : Byte) : Int :=
  if asciiLower c then (c.val : Int) - 32 else (c.val : Int)

/-- What the transforms read from the environment: whether plain `char` is
signed, and for the bytes from 128 on, which the locale selected at line 533
classifies, the results of `std::isupper`, `std::islower`, `std::isalpha`,
and of `std::toupper` (as the distance of the result from 128). -/
structure Platform where
  charSigned : Bool
  upperHigh : Byte → Bool
  lowerHigh : Byte → Bool
  alphaHigh : Byte → Bool
  toupperHigh : Byte → Fin 128

/-- The function `std::isupper` on `static_cast<unsigned char>(c)`. -/
def isupper (pf : Platform) (c : Byte) : Bool :=
  if c.val < 128 then asciiUpper c else pf.upperHigh c

/-- The function `std::islower` on `static_cast<unsigned char>(c)`. -/
def islower (pf : Platform) (c : Byte) : Bool :=
  if c.val < 128 then asciiLower c else pf.lowerHigh c

/-- The function `std::isalpha` on `static_cast<unsigned char>(c)`. -/
def isalpha (pf : Platform) (c : Byte) : Bool :=
  if c.val < 128 then asciiLetter c else pf.alphaHigh c

/-- The function `std::toupper` on `static_cast<unsigned char>(c)`, with its
`int` result. -/
def toupper (pf : Platform) (c : Byte) : Int :=
  if c.val < 128 then asciiToupper c else 128 + ((pf.toupperHigh c).val : Int)

/-- The value of a plain `char` in an `int` expression such as `c - base`. -/
def charToInt (pf : Platform) (c : Byte) : Int :=
  if pf.charSigned = true ∧ 128 ≤ c.val then (c.val : Int) - 256 else (c.val : Int)

/-- A byte is a letter for the transforms when the test `isUpper || isLower` of
their loops succeeds. -/
def isLetter (pf : Platform) (c : Byte) : Bool := isupper pf c || islower pf c

/-- The "C" locale: no byte from 128 on is a letter, `std::toupper` leaves
these bytes as they are. -/
def cLocale : Platform where
  charSigned := true
  upperHigh := fun _ => false
  lowerHigh := fun _ => false
  alphaHigh := fun _ => false
  toupperHigh := fun c => ⟨c.val % 128, Nat.mod_lt _ (by decide)⟩

/-- The Russian letters of code page 1251, the page lines 535-536 select, with
the signed `char` of that platform: the bytes `0xC0..0xDF` are upper-case
letters, the bytes `0xE0..0xFF` lower-case letters with their upper-case forms
32 below. The other bytes from 128 on are left without a class; no statement
below reads them. -/
def cp1251 : Platform where
  charSigned := true
  upperHigh := fun c => decide (192 ≤ c.val) && decide (c.val ≤ 223)
  lowerHigh := fun c => decide (224 ≤ c.val)
  alphaHigh := fun c => decide (192 ≤ c.val)
  toupperHigh := fun c =>
    ⟨(if 224 ≤ c.val then c.val - 32 else c.val) % 128, Nat.mod_lt _ (by decide)⟩

/-- The bytes of an ASCII string literal. -/
def bytes (s : String) : List Byte := s.toList.map (fun (ch : Char) => toChar (ch.toNat : Int))

/-! ## Caesar (`caesarMenu`, lines 45-80) -/

/-- Lines 45-48: `shift = key % 26; if (shift < 0) shift = shift + 26;`. -/
def caesarShift (key : Int) : Int :=
  let shift := cRem key 26
  if shift < 0 then shift + 26 else shift

/-- The body of the loop of lines 51-80 for one character `c = text[i]`. -/
def caesarChar (pf : Platform) (mode : Mode) (shift : Int) (c : Byte) : Byte :=
  let isUpper := isupper pf c
  let isLower := islower pf c
  if isUpper || isLower then
    let base : Int := if isUpper then 65 else 97
    let offset : Int := charToInt pf c - base
    let newOffset : Int :=
      match mode with
      | Mode.encrypt => cRem (offset + shift) 26
      | Mode.decrypt => cRem (offset + 26 - shift) 26
    toChar (base + newOffset)
  else c

/-- The Caesar transform: `result[i]` is computed from `text[i]` alone, for
every index `i` of `text`. -/
def caesarMenu (pf : Platform) (mode : Mode) (text : List Byte) (key : Int) : List Byte :=
  text.map (caesarChar pf mode (caesarShift key))

/-! ## XOR (`xorMenu`, lines 118-126) -/

/-- Line 124: `result[i] = text[i] ^ key`. Both operands are promoted to `int`;
the low byte of the result is the exclusive or of the two bytes. -/
def xorChar (key : Byte) (c : Byte) : Byte :=
  ⟨c.val ^^^ key.val, Nat.xor_lt_two_pow (n := 8) c.isLt key.isLt⟩

/-- The XOR transform; `mode` only selects the label that is printed. -/
def xorMenu (_mode : Mode) (text : List Byte) (key : Byte) : List Byte :=
  text.map (xorChar key)

/-! ## Multi-alphabet substitution (`multiAlphabetMenu`, lines 160-193) -/

/-- Line 160: `int shifts[4] = { 12, 5, 9, 21 };`. -/
def shifts : List Int := [12, 5, 9, 21]

/-- The body of the loop of lines 166-193 for the character `c = text[i]`. -/
def multiAlphabetChar (pf : Platform) (mode : Mode) (i : Nat) (c : Byte) : Byte :=
  let isUpper := isupper pf c
  let isLower := islower pf c
  if isUpper || isLower then
    let base : Int := if isUpper then 65 else 97
    let offset : Int := charToInt pf c - base
    let shift : Int := shifts.getD (i % 4) 0
    let shift : Int :=
      match mode with
      | Mode.encrypt => shift
      | Mode.decrypt => 26 - shift
    let newOffset : Int := cRem (offset + shift) 26
    toChar (base + newOffset)
  else c

/-- The loop of lines 166-193 from index `i` on, over the characters that are
left. -/
def multiAlphabetLoop (pf : Platform) (mode : Mode) : Nat → List Byte → List Byte
  | _, [] => []
  | i, c :: rest => multiAlphabetChar pf mode i c :: multiAlphabetLoop pf mode (i + 1) rest

/-- The multi-alphabet transform. -/
def multiAlphabetMenu (pf : Platform) (mode : Mode) (text : List Byte) : List Byte :=
  multiAlphabetLoop pf mode 0 text

/-! ## Transposition (`transpositionMenu`, lines 227-265) -/

/-- Line 228: `int perm[4] = { 3, 1, 2, 0 };`. -/
def perm : List Nat := [3, 1, 2, 0]

/-- Lines 229-235: `invPerm[perm[i]] = i` for `i = 0, 1, 2, 3`, starting from
four zeros. -/
def invPerm : List Nat :=
  (List.range 4).foldl (fun inv i => inv.set (perm.getD i 0) i) [0, 0, 0, 0]

/-- Lines 243-251: the block read at `j`, a space where the text has ended. -/
def readBlock (text : List Byte) (j : Nat) : List Byte :=
  (List.range 4).map (fun k => if j + k < text.length then text.getD (j + k) 32 else 32)

/-- Lines 252-263: the four characters appended for one block. -/
def emitBlock (mode : Mode) (block : List Byte) : List Byte :=
  (List.range 4).map (fun m =>
    match mode with
    | Mode.encrypt => block.getD (perm.getD m 0) 32
    | Mode.decrypt => block.getD (invPerm.getD m 0) 32)

/-- The loop of lines 242-265 from `j` on: what it appends to `result`. -/
def transpositionLoop (mode : Mode) (text : List Byte) (j : Nat) : List Byte :=
  if j < text.length then
    emitBlock mode (readBlock text j) ++ transpositionLoop mode text (j + 4)
  else []
termination_by text.length - j

/-- The transposition transform. -/
def transpositionMenu (mode : Mode) (text : List Byte) : List Byte :=
  transpositionLoop mode text 0

/-! ## Vigenère (`vigenereMenu`, lines 305-347) -/

/-- Line 331: `shift = std::toupper(static_cast<unsigned char>(kch)) - 'A'`. -/
def vigenereShift (pf : Platform) (kch : Byte) : Int := toupper pf kch - 65

/-- Lines 326-340 for a letter `c`, with the key character `kch`. -/
def vigenereChar (pf : Platform) (mode : Mode) (kch : Byte) (c : Byte) : Byte :=
  let base : Int := if islower pf c then 97 else 65
  let shift : Int := vigenereShift pf kch
  let offset : Int := charToInt pf c - base
  let newOffset : Int :=
    match mode with
    | Mode.encrypt => cRem (offset + shift) 26
    | Mode.decrypt => cRem (offset + 26 - shift) 26
  toChar (base + newOffset)

/-- The loop of lines 315-347 over the characters that are left, with the
current value of `keyPos`. -/
def vigenereLoop (pf : Platform) (mode : Mode) (key : List Byte) :
    Nat → List Byte → List Byte
  | _, [] => []
  | keyPos, c :: rest =>
    if isupper pf c || islower pf c then
      let kch : Byte := key.getD (keyPos % key.length) 0
      vigenereChar pf mode kch c :: vigenereLoop pf mode key (keyPos + 1) rest
    else
      c :: vigenereLoop pf mode key keyPos rest

/-- The Vigenère transform: an empty keyword is rejected (lines 305-310),
otherwise the loop runs with `keyPos = 0`. -/
def vigenereMenu (pf : Platform) (mode : Mode) (text : List Byte) (key : List Byte) :
    Outcome :=
  if key.isEmpty then Outcome.rejected CipherError.invalidKey
  else Outcome.result (vigenereLoop pf mode key 0 text)

/-! ## Playfair table (`buildPlayfairTable`, lines 367-403) -/

/-- The locals `used` and `seq` of `buildPlayfairTable`. -/
structure BuildState where
  used : List Bool
  seq : List Byte
  deriving DecidableEq, Repr

/-- Lines 377-381: mark the letter `c` and append it, if it is not yet used. -/
def useLetter (st : BuildState) (c : Byte) : BuildState :=
  let pos : Nat := c.val - 65
  if st.used.getD pos false = false then
    { used := st.used.set pos true, seq := st.seq ++ [c] }
  else st

/-- Lines 372-382: one character of the keyword. -/
def keyStep (pf : Platform) (st : BuildState) (k : Byte) : BuildState :=
  let c : Byte := toChar (toupper pf k)
  let c : Byte := if c = 74 then 73 else c
  if 65 ≤ c.val ∧ c.val ≤ 90 then useLetter st c else st

/-- Lines 387-393: one letter `c2` of the second loop. -/
def fillStep (st : BuildState) (c2 : Byte) : BuildState :=
  if c2 ≠ 74 then useLetter st c2 else st

/-- The values of `c2` in the loop of lines 385-395: `'A'` to `'Z'`. -/
def lettersAZ : List Byte := (List.range 26).map (fun (n : Nat) => toChar (65 + (n : Int)))

/-- The string `seq` after both loops (lines 368-395). -/
def buildSeq (pf : Platform) (key : List Byte) : List Byte :=
  (lettersAZ.foldl fillStep
    (key.foldl (keyStep pf) { used := List.replicate 26 false, seq := [] })).seq

/-- The table, row-major: `table[k / 5][k % 5] = seq[k]` for `k < 25` (lines
396-402). Reading `seq[k]` is defined only inside `seq`, so there is a table
only when `seq` has at least 25 characters. -/
def buildPlayfairTable (pf : Platform) (key : List Byte) : Option (List Byte) :=
  let seq := buildSeq pf key
  if 25 ≤ seq.length then some (seq.take 25) else none

/-- The cell `table[r][c]` of a row-major table. -/
def cell (table : List Byte) (r c : Nat) : Byte := table.getD (5 * r + c) 0

/-! ## Playfair (`playfairMenu`, lines 425-513) -/

/-- Lines 435-446: the letters of the text, in upper case, `J` as `I`. -/
def filterText (pf : Platform) (text : List Byte) : List Byte :=
  text.filterMap (fun t =>
    let c : Byte := toChar (toupper pf t)
    if isalpha pf c && (decide (65 ≤ c.val) && decide (c.val ≤ 90)) then
      (if c = 74 then some 73 else some c)
    else none)

/-- Lines 459-478: the row and column of the last cell holding `x`, `(0, 0)`
when there is none. -/
def locate (table : List Byte) (x : Byte) : Nat × Nat :=
  (List.range 5).foldl (fun acc r =>
    (List.range 5).foldl (fun acc c => if cell table r c = x then (r, c) else acc) acc)
    (0, 0)

/-- Lines 479-506: the two characters appended for the digraph `(a, b)`. -/
def substitute (mode : Mode) (table : List Byte) (a b : Byte) : List Byte :=
  let ra := (locate table a).1
  let ca := (locate table a).2
  let rb := (locate table b).1
  let cb := (locate table b).2
  match mode with
  | Mode.encrypt =>
    if ra = rb then [cell table ra ((ca + 1) % 5), cell table rb ((cb + 1) % 5)]
    else if ca = cb then [cell table ((ra + 1) % 5) ca, cell table ((rb + 1) % 5) cb]
    else [cell table ra cb, cell table rb ca]
  | Mode.decrypt =>
    if ra = rb then [cell table ra ((ca + 4) % 5), cell table rb ((cb + 4) % 5)]
    else if ca = cb then [cell table ((ra + 4) % 5) ca, cell table ((rb + 4) % 5) cb]
    else [cell table ra cb, cell table rb ca]

/-- Lines 451-458: the digraph `(a, b)` taken at `j`. -/
def digraphAt (pts : List Byte) (j : Nat) : Byte × Byte :=
  let a : Byte := pts.getD j 0
  let b : Byte := if j + 1 < pts.length then pts.getD (j + 1) 0 else a
  let b : Byte := if a = b then 88 else b
  (a, b)

/-- Lines 507-512: the next value of `j`, tested on `a` and the final `b`. -/
def nextIndex (pts : List Byte) (j : Nat) : Nat :=
  if (digraphAt pts j).1 = (digraphAt pts j).2 then j + 1 else j + 2

/-- The loop of lines 450-513 from `j` on: what it appends to `result`. -/
def playfairLoop (mode : Mode) (table : List Byte) (pts : List Byte) (j : Nat) : List Byte :=
  if j < pts.length then
    substitute mode table (digraphAt pts j).1 (digraphAt pts j).2 ++
      playfairLoop mode table pts (nextIndex pts j)
  else []
termination_by pts.length - j
decreasing_by
  simp only [nextIndex]
  split <;> omega

/-- The Playfair transform: an empty keyword is rejected (lines 425-430),
otherwise the table is built, the text filtered and the digraphs replaced. -/
def playfairMenu (pf : Platform) (mode : Mode) (text : List Byte) (key : List Byte) :
    Outcome :=
  if key.isEmpty then Outcome.rejected CipherError.invalidKey
  else
    match buildPlayfairTable pf key with
    | none => Outcome.undefinedRead
    | some table => Outcome.result (playfairLoop mode table (filterText pf text) 0)

/-! ## Auxiliary definitions used in the statements and proofs -/

/-- The 25 letters of a Playfair table: `A` to `Z` without `J`. -/
def alphabet25 : List Byte := lettersAZ.filter (fun c => decide (c ≠ 74))

/-- What the loops of `buildPlayfairTable` keep true of `used` and `seq`. -/
structure BuildInv (st : BuildState) : Prop where
  len : st.used.length = 26
  letters : ∀ c ∈ st.seq, 65 ≤ c.val ∧ c.val ≤ 90 ∧ c.val ≠ 74
  nodup : st.seq.Nodup
  used_iff : ∀ c : Byte, 65 ≤ c.val → c.val ≤ 90 →
    (st.used.getD (c.val - 65) false = true ↔ c ∈ st.seq)

/-- The transposition of a text taken block by block: the text is consumed
four characters at a time, a last shorter block being filled with spaces.
It is shown equal to `transpositionLoop`. -/
def blockwise (mode : Mode) : List Byte → List Byte
  | [] => []
  | [a] => emitBlock mode [a, 32, 32, 32]
  | [a, b] => emitBlock mode [a, b, 32, 32]
  | [a, b, c] => emitBlock mode [a, b, c, 32]
  | a :: b :: c :: d :: rest => emitBlock mode [a, b, c, d] ++ blockwise mode rest

/-- The text filled with spaces up to the next multiple of four. -/
def padded (text : List Byte) : List Byte :=
  text ++ List.replicate ((4 - text.length % 4) % 4) 32

/-- The loop of `playfairLoop` run for at most `n` iterations; it is shown
equal to `playfairLoop` when `n` is at least the number of characters left. -/
def playfairLoopN (mode : Mode) (table : List Byte) (pts : List Byte) :
    Nat → Nat → List Byte
  | 0, _ => []
  | n + 1, j =>
    if j < pts.length then
      substitute mode table (digraphAt pts j).1 (digraphAt pts j).2 ++
        playfairLoopN mode table pts n (nextIndex pts j)
    else []

/-- The letter a keyword character stands for in the table, in the words of
the specification: the character in upper case, `J` taken as `I`; a non-letter
stands for none. -/
def keyLetter (k : Byte) : Option Byte :=
  if asciiLetter k then
    (if toChar (asciiToupper k) = 74 then some 73 else some (toChar (asciiToupper k)))
  else none

/-- The distinct members of a list, in the order of their first occurrence. -/
def distinctFirst : List Byte → List Byte
  | [] => []
  | x :: xs => x :: (distinctFirst xs).filter (fun y => decide (y ≠ x))

/-- The table in the words of the specification: the distinct letters of the
keyword in the order of their first occurrence, then the letters `A..Z`
without `J` that the keyword does not contain, in alphabetical order. -/
def specTable (key : List Byte) : List Byte :=
  distinctFirst (key.filterMap keyLetter) ++
    alphabet25.filter (fun c => decide (c ∉ key.filterMap keyLetter))

/-- Appending the members of `ls` to `seq` one by one, each only when it is
not yet there. -/
def addAll (seq : List Byte) (ls : List Byte) : List Byte :=
  ls.foldl (fun s c => if c ∈ s then s else s ++ [c]) seq

/-- A buffer of even length whose aligned digraphs are made of two different
characters. -/
def goodPairs : List Byte → Prop
  | [] => True
  | [_] => False
  | a :: b :: rest => a ≠ b ∧ goodPairs rest

/-- The replacement of the aligned digraphs of a buffer, one after the other. -/
def pairs (mode : Mode) (table : List Byte) : List Byte → List Byte
  | a :: b :: rest => substitute mode table a b ++ pairs mode table rest
  | _ => []

/-- The text has no letter but ASCII letters: every byte that passes
`isUpper || isLower` is one of `A..Z`, `a..z`. It is so for every text in the
"C" locale, and for every text of bytes below 128 in every locale. -/
abbrev latinText (pf : Platform) (text : List Byte) : Prop :=
  ∀ c ∈ text, isLetter pf c = true → asciiLetter c = true

/-! ## Lemmas on C arithmetic and on the character classes -/

theorem cRem_of_nonneg {a : Int} (h : 0 ≤ a) : cRem a 26 = a % 26 :=
  Int.tmod_eq_emod h (by decide)

theorem cRem_of_neg {a : Int} (h : a < 0) : cRem a 26 = -((-a) % 26) := by
  have h1 : cRem a 26 = -(cRem (-a) 26) := by
    unfold cRem
    obtain ⟨n, rfl⟩ : ∃ n : Nat, a = Int.negSucc n := by
      cases a with
      | ofNat m => exact absurd h (by simp)
      | negSucc n => exact ⟨n, rfl⟩
    rfl
  rw [h1, cRem_of_nonneg (by omega)]

theorem caesarShift_eq (key : Int) : caesarShift key = key % 26 := by
  unfold caesarShift
  rcases Int.lt_or_le key 0 with h | h
  · rw [cRem_of_neg h]
    simp only
    split <;> omega
  · rw [cRem_of_nonneg h]
    simp only
    split <;> omega

theorem caesarShift_range (key : Int) : 0 ≤ caesarShift key ∧ caesarShift key ≤ 25 := by
  rw [caesarShift_eq]
  omega

theorem toChar_val (c : Byte) : toChar (c.val : Int) = c := by
  apply Fin.ext
  simp only [toChar]
  omega

theorem toChar_rot (base x : Int) (hb : base = 65 ∨ base = 97) (hx : 0 ≤ x) :
    ((toChar (base + cRem x 26)).val : Int) = base + x % 26 := by
  rw [cRem_of_nonneg hx]
  simp only [toChar]
  omega

theorem asciiUpper_iff (c : Byte) : asciiUpper c = true ↔ 65 ≤ c.val ∧ c.val ≤ 90 := by
  simp [asciiUpper]

theorem asciiLower_iff (c : Byte) : asciiLower c = true ↔ 97 ≤ c.val ∧ c.val ≤ 122 := by
  simp [asciiLower]

theorem asciiLetter_iff (c : Byte) :
    asciiLetter c = true ↔ (65 ≤ c.val ∧ c.val ≤ 90) ∨ (97 ≤ c.val ∧ c.val ≤ 122) := by
  simp [asciiLetter, asciiUpper, asciiLower]

theorem asciiUpper_false_of_lower (c : Byte) (hc : 97 ≤ c.val ∧ c.val ≤ 122) :
    asciiUpper c = false := by
  simp only [asciiUpper, Bool.and_eq_false_imp, decide_eq_true_eq, decide_eq_false_iff_not]
  omega

theorem asciiLower_false_of_upper (c : Byte) (hc : 65 ≤ c.val ∧ c.val ≤ 90) :
    asciiLower c = false := by
  simp only [asciiLower, Bool.and_eq_false_imp, decide_eq_true_eq, decide_eq_false_iff_not]
  omega

/-! ## Every locale agrees with the "C" locale below 128 -/

theorem isupper_ascii (pf : Platform) (c : Byte) (h : c.val < 128) :
    isupper pf c = asciiUpper c := by
  unfold isupper
  rw [if_pos h]

theorem islower_ascii (pf : Platform) (c : Byte) (h : c.val < 128) :
    islower pf c = asciiLower c := by
  unfold islower
  rw [if_pos h]

theorem isalpha_ascii (pf : Platform) (c : Byte) (h : c.val < 128) :
    isalpha pf c = asciiLetter c := by
  unfold isalpha
  rw [if_pos h]

theorem toupper_ascii (pf : Platform) (c : Byte) (h : c.val < 128) :
    toupper pf c = asciiToupper c := by
  unfold toupper
  rw [if_pos h]

theorem charToInt_ascii (pf : Platform) (c : Byte) (h : c.val < 128) :
    charToInt pf c = (c.val : Int) := by
  unfold charToInt
  rw [if_neg]
  intro hh
  omega

theorem isLetter_ascii (pf : Platform) (c : Byte) (h : c.val < 128) :
    isLetter pf c = asciiLetter c := by
  unfold isLetter asciiLetter
  rw [isupper_ascii pf c h, islower_ascii pf c h]

theorem asciiLetter_lt (c : Byte) (h : asciiLetter c = true) : c.val < 128 := by
  rcases (asciiLetter_iff c).1 h with h | h <;> omega

theorem isLetter_of_asciiLetter (pf : Platform) (c : Byte) (h : asciiLetter c = true) :
    isLetter pf c = true := by
  rw [isLetter_ascii pf c (asciiLetter_lt c h)]
  exact h

theorem toupper_high (pf : Platform) (c : Byte) (h : 128 ≤ c.val) :
    128 ≤ toupper pf c ∧ toupper pf c ≤ 255 := by
  unfold toupper
  rw [if_neg (by omega)]
  have := (pf.toupperHigh c).isLt
  omega

theorem isupper_cLocale (c : Byte) : isupper cLocale c = asciiUpper c := by
  unfold isupper
  split
  · rfl
  · rename_i h
    have : asciiUpper c = false := by
      simp only [asciiUpper, Bool.and_eq_false_imp, decide_eq_true_eq,
        decide_eq_false_iff_not]
      omega
    rw [this]
    rfl

theorem islower_cLocale (c : Byte) : islower cLocale c = asciiLower c := by
  unfold islower
  split
  · rfl
  · rename_i h
    have : asciiLower c = false := by
      simp only [asciiLower, Bool.and_eq_false_imp, decide_eq_true_eq,
        decide_eq_false_iff_not]
      omega
    rw [this]
    rfl

theorem isLetter_cLocale (c : Byte) : isLetter cLocale c = asciiLetter c := by
  unfold isLetter asciiLetter
  rw [isupper_cLocale, islower_cLocale]

/-! ## Caesar: what one step does -/

theorem caesarChar_upper (pf : Platform) (mode : Mode) (s : Int) (c : Byte)
    (hs : 0 ≤ s ∧ s ≤ 25) (hc : 65 ≤ c.val ∧ c.val ≤ 90) :
    ((caesarChar pf mode s c).val : Int) =
      65 + ((c.val : Int) - 65 + (match mode with
        | Mode.encrypt => s
        | Mode.decrypt => 26 - s)) % 26 := by
  have hu : isupper pf c = true := by
    rw [isupper_ascii pf c (by omega)]
    exact (asciiUpper_iff c).2 hc
  have hv := charToInt_ascii pf c (by omega)
  cases mode
  · simp only [caesarChar, hu, hv, Bool.true_or, if_true]
    exact toChar_rot 65 _ (Or.inl rfl) (by omega)
  · simp only [caesarChar, hu, hv, Bool.true_or, if_true]
    have e : (c.val : Int) - 65 + 26 - s = (c.val : Int) - 65 + (26 - s) := by omega
    rw [e]
    exact toChar_rot 65 _ (Or.inl rfl) (by omega)

theorem caesarChar_lower (pf : Platform) (mode : Mode) (s : Int) (c : Byte)
    (hs : 0 ≤ s ∧ s ≤ 25) (hc : 97 ≤ c.val ∧ c.val ≤ 122) :
    ((caesarChar pf mode s c).val : Int) =
      97 + ((c.val : Int) - 97 + (match mode with
        | Mode.encrypt => s
        | Mode.decrypt => 26 - s)) % 26 := by
  have hl : islower pf c = true := by
    rw [islower_ascii pf c (by omega)]
    exact (asciiLower_iff c).2 hc
  have hu : isupper pf c = false := by
    rw [isupper_ascii pf c (by omega)]
    exact asciiUpper_false_of_lower c hc
  have hv := charToInt_ascii pf c (by omega)
  cases mode
  · simp only [caesarChar, hu, hl, hv, Bool.or_true, if_true, Bool.false_eq_true, if_false]
    exact toChar_rot 97 _ (Or.inr rfl) (by omega)
  · simp only [caesarChar, hu, hl, hv, Bool.or_true, if_true, Bool.false_eq_true, if_false]
    have e : (c.val : Int) - 97 + 26 - s = (c.val : Int) - 97 + (26 - s) := by omega
    rw [e]
    exact toChar_rot 97 _ (Or.inr rfl) (by omega)

theorem caesarChar_other (pf : Platform) (mode : Mode) (s : Int) (c : Byte)
    (hc : isLetter pf c = false) : caesarChar pf mode s c = c := by
  simp only [isLetter] at hc
  simp [caesarChar, hc]

/-- With a shift in `0..25` a step maps an ASCII letter to an ASCII letter of
the same case. -/
theorem caesarChar_class (pf : Platform) (mode : Mode) (s : Int) (c : Byte)
    (hs : 0 ≤ s ∧ s ≤ 25) (hl : asciiLetter c = true) :
    asciiUpper (caesarChar pf mode s c) = asciiUpper c ∧
    asciiLower (caesarChar pf mode s c) = asciiLower c := by
  rcases (asciiLetter_iff c).1 hl with hc | hc
  · have h1 := caesarChar_upper pf mode s c hs hc
    have hr : 65 ≤ (caesarChar pf mode s c).val ∧ (caesarChar pf mode s c).val ≤ 90 := by
      cases mode <;> simp only at h1 <;> omega
    rw [(asciiUpper_iff _).2 hr, (asciiUpper_iff _).2 hc, asciiLower_false_of_upper _ hr,
      asciiLower_false_of_upper _ hc]
    exact ⟨rfl, rfl⟩
  · have h1 := caesarChar_lower pf mode s c hs hc
    have hr : 97 ≤ (caesarChar pf mode s c).val ∧ (caesarChar pf mode s c).val ≤ 122 := by
      cases mode <;> simp only at h1 <;> omega
    rw [(asciiLower_iff _).2 hr, (asciiLower_iff _).2 hc, asciiUpper_false_of_lower _ hr,
      asciiUpper_false_of_lower _ hc]
    exact ⟨rfl, rfl⟩

theorem caesarChar_roundtrip (pf : Platform) (s : Int) (c : Byte) (hs : 0 ≤ s ∧ s ≤ 25)
    (hp : isLetter pf c = true → asciiLetter c = true) :
    caesarChar pf Mode.decrypt s (caesarChar pf Mode.encrypt s c) = c := by
  by_cases hl : isLetter pf c = true
  · rcases (asciiLetter_iff c).1 (hp hl) with hc | hc
    · have h1 := caesarChar_upper pf Mode.encrypt s c hs hc
      simp only at h1
      have h2 := caesarChar_upper pf Mode.decrypt s (caesarChar pf Mode.encrypt s c) hs
        (by omega)
      simp only at h2
      apply Fin.ext
      omega
    · have h1 := caesarChar_lower pf Mode.encrypt s c hs hc
      simp only at h1
      have h2 := caesarChar_lower pf Mode.decrypt s (caesarChar pf Mode.encrypt s c) hs
        (by omega)
      simp only at h2
      apply Fin.ext
      omega
  · have hn : isLetter pf c = false := by simpa using hl
    rw [caesarChar_other _ _ _ _ hn, caesarChar_other _ _ _ _ hn]

/-! ## XOR -/

theorem xorChar_xorChar (key c : Byte) : xorChar key (xorChar key c) = c := by
  apply Fin.ext
  simp only [xorChar]
  rw [Nat.xor_assoc, Nat.xor_self, Nat.xor_zero]

/-! ## Multi-alphabet and Vigenère steps are Caesar steps -/

theorem shifts_range (i : Nat) : 0 ≤ shifts.getD (i % 4) 0 ∧ shifts.getD (i % 4) 0 ≤ 25 := by
  have h : i % 4 < 4 := Nat.mod_lt _ (by decide)
  interval_cases (i % 4) <;> decide

theorem multiAlphabetChar_eq (pf : Platform) (mode : Mode) (i : Nat) (c : Byte) :
    multiAlphabetChar pf mode i c = caesarChar pf mode (shifts.getD (i % 4) 0) c := by
  cases mode
  · rfl
  · unfold multiAlphabetChar caesarChar
    simp only
    split
    · have e : ∀ (o t : Int), o + (26 - t) = o + 26 - t := by intro o t; omega
      rw [e]
    · rfl

theorem buildInv_init : BuildInv { used := List.replicate 26 false, seq := [] } where
  len := by simp
  letters := by simp
  nodup := List.nodup_nil
  used_iff := by
    intro c _ _
    simp only [List.not_mem_nil, iff_false, List.getD_eq_getElem?_getD, List.getElem?_replicate]
    split <;> simp

theorem useLetter_inv (st : BuildState) (c : Byte) (h : BuildInv st)
    (hc : 65 ≤ c.val ∧ c.val ≤ 90 ∧ c.val ≠ 74) : BuildInv (useLetter st c) := by
  unfold useLetter
  simp only
  split
  · rename_i hu
    have hnot : c ∉ st.seq := by
      intro hm
      have ht := (h.used_iff c hc.1 hc.2.1).2 hm
      rw [hu] at ht
      exact Bool.noConfusion ht
    refine ⟨?_, ?_, ?_, ?_⟩
    · simp [h.len]
    · intro d hd
      rcases List.mem_append.1 hd with hd | hd
      · exact h.letters d hd
      · have : d = c := by simpa using hd
        subst this
        exact hc
    · refine List.nodup_append.2 ⟨h.nodup, List.nodup_singleton c, ?_⟩
      intro d hd hd2
      have : d = c := by simpa using hd2
      subst this
      exact hnot hd
    · intro d h1 h2
      have hlen : c.val - 65 < st.used.length := by rw [h.len]; omega
      by_cases hdc : d = c
      · subst hdc
        simp [List.getD_eq_getElem?_getD, List.getElem?_set, hlen]
      · have hne : c.val - 65 ≠ d.val - 65 := by
          intro e
          apply hdc
          apply Fin.ext
          omega
        simp only [List.getD_eq_getElem?_getD, List.getElem?_set_ne hne, List.mem_append,
          List.mem_singleton, hdc, or_false]
        simpa [List.getD_eq_getElem?_getD] using h.used_iff d h1 h2
  · exact h

theorem useLetter_mono (st : BuildState) (c x : Byte) (hx : x ∈ st.seq) :
    x ∈ (useLetter st c).seq := by
  unfold useLetter
  simp only
  split
  · exact List.mem_append_left _ hx
  · exact hx

theorem useLetter_mem (st : BuildState) (c : Byte) (h : BuildInv st)
    (hc : 65 ≤ c.val ∧ c.val ≤ 90) : c ∈ (useLetter st c).seq := by
  unfold useLetter
  simp only
  split
  · simp
  · rename_i hu
    have ht : st.used.getD (c.val - 65) false = true := by simpa using hu
    exact (h.used_iff c hc.1 hc.2).1 ht

theorem keyStep_inv (pf : Platform) (st : BuildState) (k : Byte) (h : BuildInv st) :
    BuildInv (keyStep pf st k) := by
  unfold keyStep
  simp only
  by_cases h74 : toChar (toupper pf k) = 74
  · simp only [h74, if_true]
    rw [if_pos (by decide)]
    exact useLetter_inv st 73 h (by decide)
  · simp only [h74, if_false]
    split
    · rename_i hr
      exact useLetter_inv st _ h ⟨hr.1, hr.2, fun e => h74 (Fin.ext (by simpa using e))⟩
    · exact h

theorem fillStep_inv (st : BuildState) (c2 : Byte) (h : BuildInv st)
    (hc : 65 ≤ c2.val ∧ c2.val ≤ 90) : BuildInv (fillStep st c2) := by
  unfold fillStep
  split
  · rename_i hne
    refine useLetter_inv st c2 h ⟨hc.1, hc.2, ?_⟩
    intro e
    apply hne
    apply Fin.ext
    simpa using e
  · exact h

theorem fillStep_mono (st : BuildState) (c2 x : Byte) (hx : x ∈ st.seq) :
    x ∈ (fillStep st c2).seq := by
  unfold fillStep
  split
  · exact useLetter_mono st c2 x hx
  · exact hx

theorem foldl_keyStep_inv (pf : Platform) (key : List Byte) (st : BuildState)
    (h : BuildInv st) : BuildInv (key.foldl (keyStep pf) st) := by
  induction key generalizing st with
  | nil => exact h
  | cons k rest ih => exact ih _ (keyStep_inv pf st k h)

theorem foldl_fillStep_inv (l : List Byte) (st : BuildState) (h : BuildInv st)
    (hl : ∀ c ∈ l, 65 ≤ c.val ∧ c.val ≤ 90) : BuildInv (l.foldl fillStep st) := by
  induction l generalizing st with
  | nil => exact h
  | cons c rest ih =>
    exact ih _ (fillStep_inv st c h (hl c (List.mem_cons_self _ _)))
      (fun d hd => hl d (List.mem_cons_of_mem _ hd))

theorem foldl_fillStep_mono (l : List Byte) (st : BuildState) (x : Byte) (hx : x ∈ st.seq) :
    x ∈ (l.foldl fillStep st).seq := by
  induction l generalizing st with
  | nil => exact hx
  | cons c rest ih => exact ih _ (fillStep_mono st c x hx)

theorem foldl_fillStep_mem (l : List Byte) (st : BuildState) (h : BuildInv st)
    (hl : ∀ c ∈ l, 65 ≤ c.val ∧ c.val ≤ 90) (x : Byte) (hx : x ∈ l) (hne : x ≠ 74) :
    x ∈ (l.foldl fillStep st).seq := by
  induction l generalizing st with
  | nil => cases hx
  | cons c rest ih =>
    have hc := hl c (List.mem_cons_self _ _)
    have hrest : ∀ d ∈ rest, 65 ≤ d.val ∧ d.val ≤ 90 := fun d hd => hl d (List.mem_cons_of_mem _ hd)
    rw [List.foldl_cons]
    rcases List.mem_cons.1 hx with rfl | hx
    · apply foldl_fillStep_mono
      unfold fillStep
      rw [if_pos hne]
      exact useLetter_mem st x h hc
    · exact ih _ (fillStep_inv st c h hc) hrest hx

theorem lettersAZ_range : ∀ c ∈ lettersAZ, 65 ≤ c.val ∧ c.val ≤ 90 := by
  intro c hc
  obtain ⟨n, hn, rfl⟩ := List.mem_map.1 hc
  have hn2 : n < 26 := List.mem_range.1 hn
  simp only [toChar]
  omega

theorem mem_lettersAZ (c : Byte) (h : 65 ≤ c.val ∧ c.val ≤ 90) : c ∈ lettersAZ := by
  unfold lettersAZ
  have hlt : c.val - 65 < 26 := by omega
  refine List.mem_map.2 ⟨c.val - 65, List.mem_range.2 hlt, ?_⟩
  apply Fin.ext
  simp only [toChar]
  omega

theorem mem_alphabet25 (c : Byte) :
    c ∈ alphabet25 ↔ 65 ≤ c.val ∧ c.val ≤ 90 ∧ c.val ≠ 74 := by
  unfold alphabet25
  constructor
  · intro h
    have h1 := List.mem_filter.1 h
    have h2 := lettersAZ_range c h1.1
    have h3 : c ≠ 74 := by simpa using h1.2
    refine ⟨h2.1, h2.2, ?_⟩
    intro e
    apply h3
    apply Fin.ext
    simpa using e
  · intro h
    refine List.mem_filter.2 ⟨mem_lettersAZ c ⟨h.1, h.2.1⟩, ?_⟩
    have : c ≠ 74 := by
      intro e
      apply h.2.2
      rw [e]
      rfl
    simpa using this

theorem alphabet25_nodup : alphabet25.Nodup := by decide

theorem alphabet25_length : alphabet25.length = 25 := by decide

theorem buildSeq_inv (pf : Platform) (key : List Byte) :
    BuildInv (lettersAZ.foldl fillStep
      (key.foldl (keyStep pf) { used := List.replicate 26 false, seq := [] })) :=
  foldl_fillStep_inv _ _ (foldl_keyStep_inv pf key _ buildInv_init) lettersAZ_range

theorem buildSeq_perm (pf : Platform) (key : List Byte) :
    (buildSeq pf key).Perm alphabet25 := by
  have hinv := buildSeq_inv pf key
  refine (List.perm_ext_iff_of_nodup hinv.nodup alphabet25_nodup).2 ?_
  intro c
  rw [mem_alphabet25]
  constructor
  · intro hc
    exact hinv.letters c hc
  · intro hc
    have hne : c ≠ 74 := by
      intro e
      apply hc.2.2
      rw [e]
      rfl
    exact foldl_fillStep_mem lettersAZ _ (foldl_keyStep_inv pf key _ buildInv_init)
      lettersAZ_range c (mem_lettersAZ c ⟨hc.1, hc.2.1⟩) hne

theorem buildSeq_length (pf : Platform) (key : List Byte) :
    (buildSeq pf key).length = 25 := by
  rw [(buildSeq_perm pf key).length_eq, alphabet25_length]

theorem buildPlayfairTable_eq (pf : Platform) (key : List Byte) :
    buildPlayfairTable pf key = some (buildSeq pf key) := by
  unfold buildPlayfairTable
  simp only
  rw [if_pos (by rw [buildSeq_length]), List.take_of_length_le (by rw [buildSeq_length])]

/-! ## The loops of the substitution ciphers -/

theorem multiAlphabetLoop_length (pf : Platform) (mode : Mode) (text : List Byte) (i : Nat) :
    (multiAlphabetLoop pf mode i text).length = text.length := by
  induction text generalizing i with
  | nil => rfl
  | cons c rest ih => simp [multiAlphabetLoop, ih]

theorem multiAlphabetLoop_roundtrip (pf : Platform) (text : List Byte) (i : Nat)
    (hp : latinText pf text) :
    multiAlphabetLoop pf Mode.decrypt i (multiAlphabetLoop pf Mode.encrypt i text) = text := by
  induction text generalizing i with
  | nil => rfl
  | cons c rest ih =>
    have hrest : latinText pf rest := fun d hd => hp d (List.mem_cons_of_mem _ hd)
    simp only [multiAlphabetLoop, ih _ hrest, multiAlphabetChar_eq]
    rw [caesarChar_roundtrip pf _ c (shifts_range i) (hp c (List.mem_cons_self _ _))]

theorem multiAlphabetLoop_frame (pf : Platform) (mode : Mode) (text : List Byte) (i n : Nat)
    (c : Byte) (h : text[n]? = some c) (hc : isLetter pf c = false) :
    (multiAlphabetLoop pf mode i text)[n]? = some c := by
  induction text generalizing i n with
  | nil => simp at h
  | cons d rest ih =>
    cases n with
    | zero =>
      have hd : d = c := by simpa using h
      subst hd
      simp only [multiAlphabetLoop, multiAlphabetChar_eq, caesarChar_other _ _ _ _ hc,
        List.getElem?_cons_zero]
    | succ m =>
      simp only [multiAlphabetLoop, List.getElem?_cons_succ]
      exact ih (i + 1) m (by simpa using h)

theorem vigenereLoop_length (pf : Platform) (mode : Mode) (key text : List Byte)
    (keyPos : Nat) : (vigenereLoop pf mode key keyPos text).length = text.length := by
  induction text generalizing keyPos with
  | nil => rfl
  | cons c rest ih =>
    unfold vigenereLoop
    split <;> simp [ih]

theorem vigenereLoop_frame (pf : Platform) (mode : Mode) (key text : List Byte)
    (keyPos n : Nat) (c : Byte) (h : text[n]? = some c) (hc : isLetter pf c = false) :
    (vigenereLoop pf mode key keyPos text)[n]? = some c := by
  induction text generalizing keyPos n with
  | nil => simp at h
  | cons d rest ih =>
    cases n with
    | zero =>
      have hd : d = c := by simpa using h
      subst hd
      have hf : (isupper pf d || islower pf d) = false := hc
      simp only [vigenereLoop, hf, Bool.false_eq_true, if_false, List.getElem?_cons_zero]
    | succ m =>
      have hm : rest[m]? = some c := by simpa using h
      unfold vigenereLoop
      split
      · simp only [List.getElem?_cons_succ]
        exact ih (keyPos + 1) m hm
      · simp only [List.getElem?_cons_succ]
        exact ih keyPos m hm

theorem invPerm_eq : invPerm = [3, 1, 2, 0] := by decide

theorem emitBlock_encrypt (a b c d : Byte) :
    emitBlock Mode.encrypt [a, b, c, d] = [d, b, c, a] := rfl

theorem emitBlock_decrypt (a b c d : Byte) :
    emitBlock Mode.decrypt [a, b, c, d] = [d, b, c, a] := rfl

theorem readBlock_drop (text : List Byte) (j : Nat) :
    readBlock text j = readBlock (text.drop j) 0 := by
  unfold readBlock
  apply List.map_congr_left
  intro k _
  simp only [List.length_drop, List.getD_eq_getElem?_getD, List.getElem?_drop, Nat.zero_add]
  by_cases h : j + k < text.length
  · have h2 : k < text.length - j := by omega
    simp [h, h2]
  · have h2 : ¬ k < text.length - j := by omega
    simp [h, h2]

theorem blockwise_unfold (mode : Mode) (l : List Byte) :
    blockwise mode l =
      if 0 < l.length then emitBlock mode (readBlock l 0) ++ blockwise mode (l.drop 4)
      else [] := by
  match l with
  | [] => rfl
  | [a] => simp [blockwise, readBlock, List.range_succ]
  | [a, b] => simp [blockwise, readBlock, List.range_succ]
  | [a, b, c] => simp [blockwise, readBlock, List.range_succ]
  | a :: b :: c :: d :: rest => simp [blockwise, readBlock, List.range_succ]

theorem transpositionLoop_eq (mode : Mode) (text : List Byte) (n : Nat) :
    ∀ j, text.length - j ≤ n → transpositionLoop mode text j = blockwise mode (text.drop j) := by
  induction n with
  | zero =>
    intro j hj
    rw [transpositionLoop, if_neg (by omega), List.drop_of_length_le (by omega)]
    rfl
  | succ n ih =>
    intro j hj
    rw [transpositionLoop, blockwise_unfold]
    by_cases h : j < text.length
    · rw [if_pos h, if_pos (by rw [List.length_drop]; omega), ih (j + 4) (by omega),
        ← readBlock_drop, List.drop_drop]
    · rw [if_neg h, if_neg (by rw [List.length_drop]; omega)]

theorem transpositionMenu_eq (mode : Mode) (text : List Byte) :
    transpositionMenu mode text = blockwise mode text := by
  unfold transpositionMenu
  rw [transpositionLoop_eq mode text text.length 0 (by omega), List.drop_zero]

theorem blockwise_roundtrip : ∀ l : List Byte,
    blockwise Mode.decrypt (blockwise Mode.encrypt l) = padded l
  | [] => rfl
  | [_] => rfl
  | [_, _] => rfl
  | [_, _, _] => rfl
  | a :: b :: c :: d :: rest => by
    have ih := blockwise_roundtrip rest
    have hp : padded (a :: b :: c :: d :: rest) = a :: b :: c :: d :: padded rest := by
      simp only [padded, List.length_cons, List.cons_append]
      have e : (rest.length + 1 + 1 + 1 + 1) % 4 = rest.length % 4 := by omega
      rw [e]
    have e1 : blockwise Mode.encrypt (a :: b :: c :: d :: rest) =
        d :: b :: c :: a :: blockwise Mode.encrypt rest := rfl
    have e2 : ∀ l : List Byte, blockwise Mode.decrypt (d :: b :: c :: a :: l) =
        a :: b :: c :: d :: blockwise Mode.decrypt l := fun _ => rfl
    rw [hp, e1, e2, ih]

/-! ## The Playfair loop with a bound on its iterations -/

theorem nextIndex_gt (pts : List Byte) (j : Nat) : j < nextIndex pts j := by
  unfold nextIndex
  split <;> omega

theorem playfairLoop_eq_N (mode : Mode) (table pts : List Byte) (n : Nat) :
    ∀ j, pts.length - j ≤ n →
      playfairLoop mode table pts j = playfairLoopN mode table pts n j := by
  induction n with
  | zero =>
    intro j hj
    rw [playfairLoop, if_neg (by omega)]
    rfl
  | succ n ih =>
    intro j hj
    rw [playfairLoop, playfairLoopN]
    by_cases h : j < pts.length
    · have := nextIndex_gt pts j
      rw [if_pos h, if_pos h, ih _ (by omega)]
    · rw [if_neg h, if_neg h]

/-! ## Transposition: length and positions of the output -/

theorem emitBlock_mode (block : List Byte) :
    emitBlock Mode.encrypt block = emitBlock Mode.decrypt block := by
  unfold emitBlock
  rw [invPerm_eq]
  rfl

theorem blockwise_mode : ∀ l : List Byte,
    blockwise Mode.encrypt l = blockwise Mode.decrypt l
  | [] => rfl
  | [_] => rfl
  | [_, _] => rfl
  | [_, _, _] => rfl
  | a :: b :: c :: d :: rest => by
    have ih := blockwise_mode rest
    simp only [blockwise, ih, emitBlock_mode]

theorem blockwise_length (mode : Mode) : ∀ l : List Byte,
    (blockwise mode l).length = 4 * ((l.length + 3) / 4)
  | [] => rfl
  | [_] => by simp [blockwise, emitBlock]
  | [_, _] => by simp [blockwise, emitBlock]
  | [_, _, _] => by simp [blockwise, emitBlock]
  | a :: b :: c :: d :: rest => by
    have ih := blockwise_length mode rest
    have e : (blockwise mode (a :: b :: c :: d :: rest)).length =
        4 + (blockwise mode rest).length := by
      cases mode <;> simp [blockwise, emitBlock]
    rw [e, ih]
    simp only [List.length_cons]
    omega

theorem padded_cons4 (a b c d : Byte) (rest : List Byte) :
    padded (a :: b :: c :: d :: rest) = a :: b :: c :: d :: padded rest := by
  simp only [padded, List.length_cons, List.cons_append]
  have e : (rest.length + 1 + 1 + 1 + 1) % 4 = rest.length % 4 := by omega
  rw [e]

theorem padded_length (l : List Byte) : (padded l).length = 4 * ((l.length + 3) / 4) := by
  simp only [padded, List.length_append, List.length_replicate]
  omega

theorem perm_lt (m : Nat) (hm : m < 4) : perm.getD m 0 < 4 := by
  interval_cases m <;> decide

theorem blockwise_encrypt_getElem? : ∀ (l : List Byte) (q m : Nat), m < 4 →
    (blockwise Mode.encrypt l)[4 * q + m]? = (padded l)[4 * q + perm.getD m 0]?
  | [], q, m, _ => by simp [blockwise, padded]
  | [a], q, m, hm => by
    cases q with
    | zero => interval_cases m <;> simp [blockwise, emitBlock, padded, perm, List.range_succ]
    | succ q =>
      have hp := perm_lt m hm
      rw [List.getElem?_eq_none (by rw [blockwise_length]; simp; omega),
        List.getElem?_eq_none (by rw [padded_length]; simp; omega)]
  | [a, b], q, m, hm => by
    cases q with
    | zero => interval_cases m <;> simp [blockwise, emitBlock, padded, perm, List.range_succ]
    | succ q =>
      have hp := perm_lt m hm
      rw [List.getElem?_eq_none (by rw [blockwise_length]; simp; omega),
        List.getElem?_eq_none (by rw [padded_length]; simp; omega)]
  | [a, b, c], q, m, hm => by
    cases q with
    | zero => interval_cases m <;> simp [blockwise, emitBlock, padded, perm, List.range_succ]
    | succ q =>
      have hp := perm_lt m hm
      rw [List.getElem?_eq_none (by rw [blockwise_length]; simp; omega),
        List.getElem?_eq_none (by rw [padded_length]; simp; omega)]
  | a :: b :: c :: d :: rest, q, m, hm => by
    have e1 : blockwise Mode.encrypt (a :: b :: c :: d :: rest) =
        d :: b :: c :: a :: blockwise Mode.encrypt rest := rfl
    rw [e1, padded_cons4]
    cases q with
    | zero => interval_cases m <;> simp [blockwise, emitBlock, padded, perm, List.range_succ]
    | succ q =>
      have ih := blockwise_encrypt_getElem? rest q m hm
      have i1 : 4 * (q + 1) + m = (4 * q + m) + 1 + 1 + 1 + 1 := by omega
      have i2 : 4 * (q + 1) + perm.getD m 0 = (4 * q + perm.getD m 0) + 1 + 1 + 1 + 1 := by
        omega
      rw [i1, i2]
      simp only [List.getElem?_cons_succ]
      exact ih

/-! ## Multi-alphabet and Vigenère: the character at each position -/

theorem multiAlphabetLoop_getElem? (pf : Platform) (mode : Mode) (text : List Byte)
    (k i : Nat) (c : Byte) (h : text[i]? = some c) :
    (multiAlphabetLoop pf mode k text)[i]? = some (multiAlphabetChar pf mode (k + i) c) := by
  induction text generalizing k i with
  | nil => simp at h
  | cons d rest ih =>
    cases i with
    | zero =>
      have hd : d = c := by simpa using h
      subst hd
      simp only [multiAlphabetLoop, List.getElem?_cons_zero, Nat.add_zero]
    | succ m =>
      simp only [multiAlphabetLoop, List.getElem?_cons_succ]
      rw [ih (k + 1) m (by simpa using h)]
      have e : k + 1 + m = k + (m + 1) := by omega
      rw [e]

theorem vigenereLoop_getElem? (pf : Platform) (mode : Mode) (key text : List Byte)
    (keyPos i : Nat) (c : Byte) (h : text[i]? = some c) (hc : isLetter pf c = true) :
    (vigenereLoop pf mode key keyPos text)[i]? =
      some (vigenereChar pf mode
        (key.getD ((keyPos + List.countP (isLetter pf) (text.take i)) % key.length) 0) c) := by
  induction text generalizing keyPos i with
  | nil => simp at h
  | cons d rest ih =>
    cases i with
    | zero =>
      have hd : d = c := by simpa using h
      subst hd
      have hl : (isupper pf d || islower pf d) = true := hc
      simp only [vigenereLoop, hl, if_true, List.getElem?_cons_zero, List.take_zero,
        List.countP_nil, Nat.add_zero]
    | succ m =>
      have hm : rest[m]? = some c := by simpa using h
      by_cases hd : isLetter pf d = true
      · have hl : (isupper pf d || islower pf d) = true := hd
        simp only [vigenereLoop, hl, if_true, List.getElem?_cons_succ, List.take_succ_cons,
          List.countP_cons, hd]
        rw [ih (keyPos + 1) m hm]
        have e : keyPos + 1 + List.countP (isLetter pf) (List.take m rest) =
            keyPos + (List.countP (isLetter pf) (List.take m rest) + 1) := by omega
        rw [e]
      · have hl : (isupper pf d || islower pf d) = false := by
          have : isLetter pf d = false := by simpa using hd
          exact this
        simp only [vigenereLoop, hl, Bool.false_eq_true, if_false, List.getElem?_cons_succ,
          List.take_succ_cons, List.countP_cons, hd]
        rw [ih keyPos m hm]
        simp

theorem forall₂_getD (pf : Platform) (key key2 : List Byte)
    (h : List.Forall₂ (fun a b => toupper pf a = toupper pf b) key key2) (n : Nat) :
    toupper pf (key.getD n 0) = toupper pf (key2.getD n 0) := by
  induction h generalizing n with
  | nil => rfl
  | cons hab _ ih =>
    cases n with
    | zero => simpa using hab
    | succ m => simpa using ih m

theorem vigenereLoop_key_case (pf : Platform) (mode : Mode) (key key2 text : List Byte)
    (keyPos : Nat) (h : List.Forall₂ (fun a b => toupper pf a = toupper pf b) key key2) :
    vigenereLoop pf mode key keyPos text = vigenereLoop pf mode key2 keyPos text := by
  have hlen : key.length = key2.length := h.length_eq
  induction text generalizing keyPos with
  | nil => rfl
  | cons c rest ih =>
    have hs : vigenereChar pf mode (key.getD (keyPos % key.length) 0) c =
        vigenereChar pf mode (key2.getD (keyPos % key2.length) 0) c := by
      unfold vigenereChar vigenereShift
      rw [hlen, forall₂_getD pf key key2 h]
    unfold vigenereLoop
    simp only [hs, ih]

theorem mem_of_getElem?_eq_some (l : List Byte) (i : Nat) (c : Byte) (h : l[i]? = some c) :
    c ∈ l := by
  obtain ⟨hlt, he⟩ := List.getElem?_eq_some.1 h
  rw [← he]
  exact List.getElem_mem _

theorem latinText_countP (pf : Platform) (text : List Byte) (i : Nat)
    (hp : latinText pf text) :
    List.countP (isLetter pf) (text.take i) = List.countP asciiLetter (text.take i) := by
  apply List.countP_congr
  intro c hc
  have hm : c ∈ text := List.mem_of_mem_take hc
  constructor
  · exact hp c hm
  · exact isLetter_of_asciiLetter pf c

/-! ## Vigenère with a keyword of letters -/

theorem latinText_cLocale (text : List Byte) : latinText cLocale text := by
  intro c _ h
  rw [isLetter_cLocale] at h
  exact h

theorem latinText_of_ascii (pf : Platform) (text : List Byte) (h : ∀ c ∈ text, c.val < 128) :
    latinText pf text := by
  intro c hc hl
  rw [isLetter_ascii pf c (h c hc)] at hl
  exact hl

theorem caesarMenu_roundtrip (pf : Platform) (text : List Byte) (k : Int)
    (hp : latinText pf text) :
    caesarMenu pf Mode.decrypt (caesarMenu pf Mode.encrypt text k) k = text := by
  unfold caesarMenu
  rw [List.map_map]
  conv_rhs => rw [← List.map_id text]
  apply List.map_congr_left
  intro c hc
  exact caesarChar_roundtrip pf _ c (caesarShift_range k) (hp c hc)

theorem vigenereMenu_result (pf : Platform) (mode : Mode) (text key : List Byte)
    (hk : key ≠ []) :
    vigenereMenu pf mode text key = Outcome.result (vigenereLoop pf mode key 0 text) := by
  have he : key.isEmpty = false := by
    cases key with
    | nil => exact absurd rfl hk
    | cons _ _ => rfl
  simp only [vigenereMenu, he, Bool.false_eq_true, if_false]

theorem playfairMenu_eq_N (pf : Platform) (mode : Mode) (text key : List Byte)
    (hk : key ≠ []) :
    playfairMenu pf mode text key =
      Outcome.result
        (playfairLoopN mode (buildSeq pf key) (filterText pf text)
          (filterText pf text).length 0) := by
  have he : key.isEmpty = false := by
    cases key with
    | nil => exact absurd rfl hk
    | cons _ _ => rfl
  unfold playfairMenu
  rw [he, buildPlayfairTable_eq]
  simp only [Bool.false_eq_true, if_false]
  rw [playfairLoop_eq_N mode _ _ (filterText pf text).length 0 (by omega)]

theorem cell_eq_getElem (table : List Byte) (r c : Nat) (h : 5 * r + c < table.length) :
    cell table r c = table[5 * r + c] := by
  unfold cell
  exact List.getD_eq_getElem _ _ h

/-- In a table without repetition every member sits in exactly one cell. -/
theorem unique_cell (table : List Byte) (hlen : table.length = 25) (hnd : table.Nodup)
    (x : Byte) (hx : x ∈ table) :
    ∃ r c, r < 5 ∧ c < 5 ∧ cell table r c = x ∧
      ∀ r2 c2, r2 < 5 → c2 < 5 → cell table r2 c2 = x → r2 = r ∧ c2 = c := by
  obtain ⟨k, hk, hkx⟩ := List.mem_iff_getElem.1 hx
  have hk25 : k < 25 := by omega
  have hidx : 5 * (k / 5) + k % 5 = k := by omega
  refine ⟨k / 5, k % 5, by omega, by omega, ?_, ?_⟩
  · rw [cell_eq_getElem table _ _ (by omega)]
    simp only [hidx]
    exact hkx
  · intro r2 c2 hr hc h2
    have hlt : 5 * r2 + c2 < table.length := by omega
    rw [cell_eq_getElem table _ _ hlt] at h2
    have hinj := (@List.Nodup.getElem_inj_iff _ _ hnd _ hlt _ hk).1 (h2.trans hkx.symm)
    omega

/-! ## The table builder against the table of the specification -/

theorem useLetter_seq (st : BuildState) (c : Byte) (h : BuildInv st)
    (hc : 65 ≤ c.val ∧ c.val ≤ 90) :
    (useLetter st c).seq = if c ∈ st.seq then st.seq else st.seq ++ [c] := by
  have hiff := h.used_iff c hc.1 hc.2
  unfold useLetter
  simp only
  by_cases hu : st.used.getD (c.val - 65) false = false
  · have hn : c ∉ st.seq := by
      intro hm
      have ht := hiff.2 hm
      rw [hu] at ht
      exact Bool.noConfusion ht
    rw [if_pos hu, if_neg hn]
  · have ht : st.used.getD (c.val - 65) false = true := by simpa using hu
    rw [if_neg hu, if_pos (hiff.1 ht)]

theorem asciiToupper_letter (k : Byte) (hl : asciiLetter k = true) :
    65 ≤ (toChar (asciiToupper k)).val ∧ (toChar (asciiToupper k)).val ≤ 90 := by
  unfold asciiToupper
  rcases (asciiLetter_iff k).1 hl with hu | hlo
  · rw [asciiLower_false_of_upper k hu]
    simp only [Bool.false_eq_true, if_false, toChar]
    omega
  · rw [(asciiLower_iff k).2 hlo]
    simp only [if_true, toChar]
    omega

theorem toupper_not_letter (pf : Platform) (k : Byte) (hn : asciiLetter k = false) :
    ¬ (65 ≤ (toChar (toupper pf k)).val ∧ (toChar (toupper pf k)).val ≤ 90) := by
  have hnr : ¬ ((65 ≤ k.val ∧ k.val ≤ 90) ∨ (97 ≤ k.val ∧ k.val ≤ 122)) := by
    intro hr
    have := (asciiLetter_iff k).2 hr
    rw [hn] at this
    exact Bool.noConfusion this
  by_cases hlt : k.val < 128
  · have hll : asciiLower k = false := by
      simp only [asciiLetter, Bool.or_eq_false_iff] at hn
      exact hn.2
    rw [toupper_ascii pf k hlt]
    unfold asciiToupper
    rw [hll]
    simp only [Bool.false_eq_true, if_false, toChar]
    omega
  · have := toupper_high pf k (by omega)
    simp only [toChar]
    omega

theorem keyLetter_range (k c : Byte) (h : keyLetter k = some c) :
    65 ≤ c.val ∧ c.val ≤ 90 ∧ c.val ≠ 74 := by
  unfold keyLetter at h
  by_cases hl : asciiLetter k = true
  · rw [if_pos hl] at h
    have hr := asciiToupper_letter k hl
    by_cases h74 : toChar (asciiToupper k) = 74
    · rw [if_pos h74] at h
      have : c = 73 := (Option.some.inj h).symm
      subst this
      decide
    · rw [if_neg h74] at h
      have : c = toChar (asciiToupper k) := (Option.some.inj h).symm
      subst this
      exact ⟨hr.1, hr.2, fun e => h74 (Fin.ext (by simpa using e))⟩
  · rw [if_neg hl] at h
    exact Option.noConfusion h

theorem keyStep_eq (pf : Platform) (st : BuildState) (k : Byte) :
    keyStep pf st k = match keyLetter k with
      | some c => useLetter st c
      | none => st := by
  unfold keyStep keyLetter
  simp only
  by_cases hl : asciiLetter k = true
  · have hr := asciiToupper_letter k hl
    rw [toupper_ascii pf k (asciiLetter_lt k hl)]
    by_cases h74 : toChar (asciiToupper k) = 74
    · simp only [hl, h74, if_true]
      rw [if_pos (by decide)]
    · simp only [hl, h74, if_true, if_false]
      rw [if_pos hr]
  · have hn : asciiLetter k = false := by simpa using hl
    have hnr := toupper_not_letter pf k hn
    have h74 : toChar (toupper pf k) ≠ 74 := by
      intro e
      apply hnr
      rw [e]
      decide
    simp only [hn, h74, Bool.false_eq_true, if_false]
    rw [if_neg hnr]

theorem foldl_keyStep_seq (pf : Platform) (key : List Byte) (st : BuildState)
    (h : BuildInv st) :
    (key.foldl (keyStep pf) st).seq = addAll st.seq (key.filterMap keyLetter) := by
  induction key generalizing st with
  | nil => rfl
  | cons k rest ih =>
    rw [List.foldl_cons, ih _ (keyStep_inv pf st k h), keyStep_eq]
    cases hk : keyLetter k with
    | none => simp only [List.filterMap_cons, hk]
    | some c =>
      have hr := keyLetter_range k c hk
      simp only [List.filterMap_cons, hk, addAll, List.foldl_cons]
      rw [useLetter_seq st c h ⟨hr.1, hr.2.1⟩]

theorem foldl_fillStep_seq (l : List Byte) (st : BuildState) (h : BuildInv st)
    (hl : ∀ c ∈ l, 65 ≤ c.val ∧ c.val ≤ 90) :
    (l.foldl fillStep st).seq = addAll st.seq (l.filter (fun c => decide (c ≠ 74))) := by
  induction l generalizing st with
  | nil => rfl
  | cons c rest ih =>
    have hc := hl c (List.mem_cons_self _ _)
    have hrest : ∀ d ∈ rest, 65 ≤ d.val ∧ d.val ≤ 90 :=
      fun d hd => hl d (List.mem_cons_of_mem _ hd)
    rw [List.foldl_cons, ih _ (fillStep_inv st c h hc) hrest]
    unfold fillStep
    by_cases h74 : c = 74
    · have hd : decide (c ≠ 74) = false := by simp [h74]
      rw [if_neg (by simp [h74]), List.filter_cons_of_neg (by simp [h74])]
    · rw [if_pos h74, List.filter_cons_of_pos (by simpa using h74)]
      simp only [addAll, List.foldl_cons]
      rw [useLetter_seq st c h hc]

theorem mem_distinctFirst (l : List Byte) (x : Byte) : x ∈ distinctFirst l ↔ x ∈ l := by
  induction l with
  | nil => simp [distinctFirst]
  | cons a rest ih =>
    simp only [distinctFirst, List.mem_cons, List.mem_filter, ih, ne_eq, decide_not,
      Bool.not_eq_true', decide_eq_false_iff_not]
    constructor
    · rintro (h | h)
      · exact Or.inl h
      · exact Or.inr h.1
    · rintro (h | h)
      · exact Or.inl h
      · by_cases e : x = a
        · exact Or.inl e
        · exact Or.inr ⟨h, e⟩

theorem addAll_eq (ls : List Byte) (seq : List Byte) :
    addAll seq ls = seq ++ (distinctFirst ls).filter (fun c => decide (c ∉ seq)) := by
  induction ls generalizing seq with
  | nil => simp [addAll, distinctFirst]
  | cons x xs ih =>
    have hstep : addAll seq (x :: xs) = addAll (if x ∈ seq then seq else seq ++ [x]) xs := rfl
    rw [hstep, ih]
    by_cases hx : x ∈ seq
    · rw [if_pos hx]
      simp only [distinctFirst]
      rw [List.filter_cons_of_neg (by simpa using hx), List.filter_filter]
      congr 1
      apply List.filter_congr
      intro y _
      by_cases hy : y ∈ seq
      · simp [hy]
      · have : y ≠ x := fun e => hy (e ▸ hx)
        simp [hy, this]
    · rw [if_neg hx]
      simp only [distinctFirst]
      rw [List.filter_cons_of_pos (by simpa using hx), List.filter_filter, List.append_assoc]
      congr 1
      simp only [List.singleton_append]
      congr 1
      apply List.filter_congr
      intro y _
      by_cases hy : y ∈ seq
      · simp [hy]
      · by_cases e : y = x
        · simp [hy, e]
        · simp [hy, e]

theorem distinctFirst_alphabet25 : distinctFirst alphabet25 = alphabet25 := by decide

theorem buildSeq_eq_specTable (pf : Platform) (key : List Byte) :
    buildSeq pf key = specTable key := by
  unfold buildSeq specTable
  rw [foldl_fillStep_seq _ _ (foldl_keyStep_inv pf key _ buildInv_init) lettersAZ_range,
    foldl_keyStep_seq pf key _ buildInv_init]
  have e1 : addAll [] (key.filterMap keyLetter) = distinctFirst (key.filterMap keyLetter) := by
    rw [addAll_eq]
    simp
  have e2 : lettersAZ.filter (fun c => decide (c ≠ 74)) = alphabet25 := rfl
  simp only
  rw [e1, e2, addAll_eq, distinctFirst_alphabet25]
  congr 1
  apply List.filter_congr
  intro y _
  simp only [mem_distinctFirst]

theorem filterText_eq_filterMap (pf : Platform) (text : List Byte) :
    filterText pf text = text.filterMap keyLetter := by
  unfold filterText
  congr 1
  funext t
  unfold keyLetter
  by_cases hl : asciiLetter t = true
  · have hr := asciiToupper_letter t hl
    rw [toupper_ascii pf t (asciiLetter_lt t hl)]
    have ha : isalpha pf (toChar (asciiToupper t)) = true := by
      rw [isalpha_ascii pf _ (by omega)]
      exact (asciiLetter_iff _).2 (Or.inl hr)
    simp only [hl, ha, hr.1, hr.2, decide_True, Bool.and_self, if_true]
  · have hn : asciiLetter t = false := by simpa using hl
    have hnr := toupper_not_letter pf t hn
    have hd : (decide (65 ≤ (toChar (toupper pf t)).val) &&
        decide ((toChar (toupper pf t)).val ≤ 90)) = false := by
      simpa using hnr
    simp only [hd, hn, Bool.and_false, Bool.false_eq_true, if_false]

theorem keyLetter_of_table_letter (c : Byte) (h : 65 ≤ c.val ∧ c.val ≤ 90 ∧ c.val ≠ 74) :
    keyLetter c = some c := by
  have hl : asciiLetter c = true := (asciiLetter_iff c).2 (Or.inl ⟨h.1, h.2.1⟩)
  have hu : toChar (asciiToupper c) = c := by
    unfold asciiToupper
    rw [asciiLower_false_of_upper c ⟨h.1, h.2.1⟩]
    simp only [Bool.false_eq_true, if_false]
    exact toChar_val c
  have h74 : c ≠ 74 := by
    intro e
    apply h.2.2
    rw [e]
    rfl
  unfold keyLetter
  rw [if_pos hl, hu, if_neg h74]

theorem filterText_id (pf : Platform) (l : List Byte)
    (h : ∀ c ∈ l, 65 ≤ c.val ∧ c.val ≤ 90 ∧ c.val ≠ 74) : filterText pf l = l := by
  rw [filterText_eq_filterMap]
  induction l with
  | nil => rfl
  | cons a rest ih =>
    rw [List.filterMap_cons, keyLetter_of_table_letter a (h a (List.mem_cons_self _ _))]
    simp only
    rw [ih (fun c hc => h c (List.mem_cons_of_mem _ hc))]

/-- The Playfair transform does not depend on the locale: the table and the
filtered buffer are the same in every locale. -/
theorem playfairMenu_platform (pf : Platform) (mode : Mode) (text key : List Byte) :
    playfairMenu pf mode text key = playfairMenu cLocale mode text key := by
  have e1 : buildPlayfairTable pf key = buildPlayfairTable cLocale key := by
    rw [buildPlayfairTable_eq, buildPlayfairTable_eq, buildSeq_eq_specTable,
      buildSeq_eq_specTable]
  have e2 : filterText pf text = filterText cLocale text := by
    rw [filterText_eq_filterMap, filterText_eq_filterMap]
  unfold playfairMenu
  rw [e1, e2]

/-! ## Finding a character in the table -/

theorem foldl_invariant {α β : Type} (P : β → Prop) (f : β → α → β) (l : List α) (b : β)
    (hb : P b) (hf : ∀ b a, a ∈ l → P b → P (f b a)) : P (l.foldl f b) := by
  induction l generalizing b with
  | nil => exact hb
  | cons a rest ih =>
    exact ih (f b a) (hf b a (List.mem_cons_self _ _) hb)
      (fun b2 a2 ha2 => hf b2 a2 (List.mem_cons_of_mem _ ha2))

theorem foldl_fixed {α β : Type} (g : β → α → β) (l : List α) (acc : β)
    (h : ∀ a ∈ l, ∀ acc, g acc a = acc) : l.foldl g acc = acc := by
  induction l generalizing acc with
  | nil => rfl
  | cons a rest ih =>
    rw [List.foldl_cons, h a (List.mem_cons_self _ _) acc]
    exact ih acc (fun a2 ha2 => h a2 (List.mem_cons_of_mem _ ha2))

theorem foldl_single {α β : Type} (g : β → α → β) (l : List α) (acc : β) (a0 : α) (v : β)
    (h0 : a0 ∈ l) (hv : ∀ acc, g acc a0 = v)
    (hother : ∀ a ∈ l, a ≠ a0 → ∀ acc, g acc a = acc) : l.foldl g acc = v := by
  induction l generalizing acc with
  | nil => cases h0
  | cons a rest ih =>
    have hrest : ∀ a2 ∈ rest, a2 ≠ a0 → ∀ acc, g acc a2 = acc :=
      fun a2 ha2 => hother a2 (List.mem_cons_of_mem _ ha2)
    rw [List.foldl_cons]
    by_cases ha : a = a0
    · subst ha
      rw [hv acc]
      by_cases hm : a ∈ rest
      · exact ih v hm hrest
      · apply foldl_fixed
        intro a2 ha2 acc2
        exact hrest a2 ha2 (fun e => hm (e ▸ ha2)) acc2
    · rw [hother a (List.mem_cons_self _ _) ha acc]
      rcases List.mem_cons.1 h0 with e | hm
      · exact absurd e.symm ha
      · exact ih acc hm hrest

theorem locate_lt (table : List Byte) (x : Byte) :
    (locate table x).1 < 5 ∧ (locate table x).2 < 5 := by
  unfold locate
  apply foldl_invariant (fun (p : Nat × Nat) => p.1 < 5 ∧ p.2 < 5)
  · exact ⟨by decide, by decide⟩
  · intro acc r hr hacc
    apply foldl_invariant (fun (p : Nat × Nat) => p.1 < 5 ∧ p.2 < 5)
    · exact hacc
    · intro acc2 c hc hacc2
      split
      · exact ⟨List.mem_range.1 hr, List.mem_range.1 hc⟩
      · exact hacc2

theorem locate_eq (table : List Byte) (x : Byte) (r0 c0 : Nat) (hr : r0 < 5) (hc : c0 < 5)
    (hx : cell table r0 c0 = x)
    (hu : ∀ r c, r < 5 → c < 5 → cell table r c = x → r = r0 ∧ c = c0) :
    locate table x = (r0, c0) := by
  unfold locate
  apply foldl_single _ _ _ r0 _ (List.mem_range.2 hr)
  · intro acc
    apply foldl_single _ _ _ c0 _ (List.mem_range.2 hc)
    · intro acc2
      rw [if_pos hx]
    · intro c hcm hne acc2
      rw [if_neg]
      intro hcell
      exact hne (hu r0 c hr (List.mem_range.1 hcm) hcell).2
  · intro r hrm hne acc
    apply foldl_fixed
    intro c hcm acc2
    rw [if_neg]
    intro hcell
    exact hne (hu r c (List.mem_range.1 hrm) (List.mem_range.1 hcm) hcell).1

theorem cell_mem (table : List Byte) (hlen : table.length = 25) (r c : Nat)
    (hr : r < 5) (hc : c < 5) : cell table r c ∈ table := by
  rw [cell_eq_getElem table r c (by omega)]
  exact List.getElem_mem _

theorem cell_inj (table : List Byte) (hlen : table.length = 25) (hnd : table.Nodup)
    (r c r2 c2 : Nat) (hr : r < 5) (hc : c < 5) (hr2 : r2 < 5) (hc2 : c2 < 5)
    (h : cell table r c = cell table r2 c2) : r = r2 ∧ c = c2 := by
  have h1 : 5 * r + c < table.length := by omega
  have h2 : 5 * r2 + c2 < table.length := by omega
  rw [cell_eq_getElem table r c h1, cell_eq_getElem table r2 c2 h2] at h
  have := (@List.Nodup.getElem_inj_iff _ _ hnd _ h1 _ h2).1 h
  omega

theorem locate_cell (table : List Byte) (hlen : table.length = 25) (hnd : table.Nodup)
    (r c : Nat) (hr : r < 5) (hc : c < 5) : locate table (cell table r c) = (r, c) :=
  locate_eq table _ r c hr hc rfl
    (fun r2 c2 hr2 hc2 h => cell_inj table hlen hnd r2 c2 r c hr2 hc2 hr hc h)

theorem cell_locate (table : List Byte) (hlen : table.length = 25) (hnd : table.Nodup)
    (x : Byte) (hx : x ∈ table) :
    cell table (locate table x).1 (locate table x).2 = x := by
  obtain ⟨r, c, hr, hc, hcell, hu⟩ := unique_cell table hlen hnd x hx
  rw [locate_eq table x r c hr hc hcell hu]
  exact hcell

theorem substitute_length (mode : Mode) (table : List Byte) (a b : Byte) :
    (substitute mode table a b).length = 2 := by
  unfold substitute
  simp only
  cases mode <;> simp only <;> split <;> try split
  all_goals rfl

theorem mod5_succ_pred (n : Nat) (h : n < 5) : ((n + 1) % 5 + 4) % 5 = n := by omega

theorem substitute_inverse (table : List Byte) (hlen : table.length = 25)
    (hnd : table.Nodup) (a b : Byte) (ha : a ∈ table) (hb : b ∈ table) (hab : a ≠ b) :
    ∃ a2 b2, substitute Mode.encrypt table a b = [a2, b2] ∧ a2 ∈ table ∧ b2 ∈ table ∧
      a2 ≠ b2 ∧ substitute Mode.decrypt table a2 b2 = [a, b] := by
  have hla := locate_lt table a
  have hlb := locate_lt table b
  have hca := cell_locate table hlen hnd a ha
  have hcb := cell_locate table hlen hnd b hb
  have h5 : ∀ n : Nat, n % 5 < 5 := fun n => Nat.mod_lt _ (by decide)
  by_cases hrow : (locate table a).1 = (locate table b).1
  · have hcol : (locate table a).2 ≠ (locate table b).2 := by
      intro e
      apply hab
      rw [← hca, ← hcb, hrow, e]
    refine ⟨cell table (locate table a).1 (((locate table a).2 + 1) % 5),
      cell table (locate table b).1 (((locate table b).2 + 1) % 5), ?_,
      cell_mem table hlen _ _ hla.1 (h5 _), cell_mem table hlen _ _ hlb.1 (h5 _), ?_, ?_⟩
    · simp only [substitute, hrow, if_true]
    · intro e
      have := cell_inj table hlen hnd _ _ _ _ hla.1 (h5 _) hlb.1 (h5 _) e
      omega
    · simp only [substitute, locate_cell table hlen hnd _ _ hla.1 (h5 _),
        locate_cell table hlen hnd _ _ hlb.1 (h5 _), hrow, if_true,
        mod5_succ_pred _ hla.2, mod5_succ_pred _ hlb.2]
      rw [← hrow, hca, hrow, hcb]
  · by_cases hcol : (locate table a).2 = (locate table b).2
    · have hrow2 : ((locate table a).1 + 1) % 5 ≠ ((locate table b).1 + 1) % 5 := by omega
      refine ⟨cell table (((locate table a).1 + 1) % 5) (locate table a).2,
        cell table (((locate table b).1 + 1) % 5) (locate table b).2, ?_,
        cell_mem table hlen _ _ (h5 _) hla.2, cell_mem table hlen _ _ (h5 _) hlb.2, ?_, ?_⟩
      · simp only [substitute, hrow, if_false, hcol, if_true]
      · intro e
        have := cell_inj table hlen hnd _ _ _ _ (h5 _) hla.2 (h5 _) hlb.2 e
        omega
      · simp only [substitute, locate_cell table hlen hnd _ _ (h5 _) hla.2,
          locate_cell table hlen hnd _ _ (h5 _) hlb.2, hrow2, if_false, hcol, if_true,
          mod5_succ_pred _ hla.1, mod5_succ_pred _ hlb.1]
        rw [← hcol, hca, hcol, hcb]
    · refine ⟨cell table (locate table a).1 (locate table b).2,
        cell table (locate table b).1 (locate table a).2, ?_,
        cell_mem table hlen _ _ hla.1 hlb.2, cell_mem table hlen _ _ hlb.1 hla.2, ?_, ?_⟩
      · simp only [substitute, hrow, if_false, hcol]
      · intro e
        have := cell_inj table hlen hnd _ _ _ _ hla.1 hlb.2 hlb.1 hla.2 e
        exact hrow this.1
      · have hcol2 : (locate table b).2 ≠ (locate table a).2 := fun e => hcol e.symm
        simp only [substitute, locate_cell table hlen hnd _ _ hla.1 hlb.2,
          locate_cell table hlen hnd _ _ hlb.1 hla.2, hrow, if_false, hcol2]
        rw [hca, hcb]

/-! ## The Playfair loop on a buffer of good digraphs -/

theorem drop_eq_cons2 (pts : List Byte) (j : Nat) (a b : Byte) (rest : List Byte)
    (h : pts.drop j = a :: b :: rest) :
    pts.getD j 0 = a ∧ pts.getD (j + 1) 0 = b ∧ j + 1 < pts.length ∧
      pts.drop (j + 2) = rest := by
  have hlen : pts.length - j = rest.length + 2 := by
    have := congrArg List.length h
    simpa using this
  have h0 : pts[j]? = some a := by
    have := congrArg (fun l : List Byte => l[0]?) h
    simpa [List.getElem?_drop] using this
  have h1 : pts[j + 1]? = some b := by
    have := congrArg (fun l : List Byte => l[1]?) h
    simpa [List.getElem?_drop] using this
  refine ⟨?_, ?_, by omega, ?_⟩
  · rw [List.getD_eq_getElem?_getD, h0]
    rfl
  · rw [List.getD_eq_getElem?_getD, h1]
    rfl
  · have : pts.drop (j + 2) = (pts.drop j).drop 2 := by
      rw [List.drop_drop]
    rw [this, h]
    rfl

theorem playfairLoopN_pairs (mode : Mode) (table pts : List Byte) (n : Nat) :
    ∀ j, pts.length - j ≤ n → goodPairs (pts.drop j) →
      playfairLoopN mode table pts n j = pairs mode table (pts.drop j) := by
  induction n with
  | zero =>
    intro j hj _
    rw [List.drop_of_length_le (by omega)]
    rfl
  | succ n ih =>
    intro j hj hg
    unfold playfairLoopN
    match hd : pts.drop j with
    | [] =>
      have : pts.length ≤ j := by
        have := congrArg List.length hd
        simp at this
        omega
      rw [if_neg (by omega)]
      rfl
    | [_] =>
      rw [hd] at hg
      exact absurd hg (by simp [goodPairs])
    | a :: b :: rest =>
      rw [hd] at hg
      obtain ⟨h0, h1, hlt, hrest⟩ := drop_eq_cons2 pts j a b rest hd
      have hdg : digraphAt pts j = (a, b) := by
        unfold digraphAt
        simp only [h0, h1, hlt, if_true, hg.1, if_false]
      have hnext : nextIndex pts j = j + 2 := by
        unfold nextIndex
        rw [hdg]
        simp only [hg.1, if_false]
      rw [if_pos (by omega), hdg, hnext, ih (j + 2) (by omega) (by rw [hrest]; exact hg.2),
        hrest]
      rfl

theorem pairs_roundtrip (table : List Byte) (hlen : table.length = 25) (hnd : table.Nodup) :
    ∀ l : List Byte, (∀ c ∈ l, c ∈ table) → goodPairs l →
      goodPairs (pairs Mode.encrypt table l) ∧
      (∀ c ∈ pairs Mode.encrypt table l, c ∈ table) ∧
      (pairs Mode.encrypt table l).length = l.length ∧
      pairs Mode.decrypt table (pairs Mode.encrypt table l) = l
  | [], _, _ => ⟨trivial, by simp [pairs], rfl, rfl⟩
  | [_], _, hg => absurd hg (by simp [goodPairs])
  | a :: b :: rest, hm, hg => by
    have ih := pairs_roundtrip table hlen hnd rest
      (fun c hc => hm c (List.mem_cons_of_mem _ (List.mem_cons_of_mem _ hc))) hg.2
    obtain ⟨a2, b2, he, ha2, hb2, hne, hdec⟩ := substitute_inverse table hlen hnd a b
      (hm a (List.mem_cons_self _ _))
      (hm b (List.mem_cons_of_mem _ (List.mem_cons_self _ _))) hg.1
    have e1 : pairs Mode.encrypt table (a :: b :: rest) =
        a2 :: b2 :: pairs Mode.encrypt table rest := by
      simp only [pairs, he, List.cons_append, List.nil_append]
    rw [e1]
    refine ⟨⟨hne, ih.1⟩, ?_, ?_, ?_⟩
    · intro c hc
      rcases List.mem_cons.1 hc with rfl | hc
      · exact ha2
      · rcases List.mem_cons.1 hc with rfl | hc
        · exact hb2
        · exact ih.2.1 c hc
    · simp only [List.length_cons, ih.2.2.1]
    · simp only [pairs, hdec, ih.2.2.2, List.cons_append, List.nil_append]

theorem goodPairs_of_index : ∀ l : List Byte, l.length % 2 = 0 →
    (∀ i, 2 * i + 1 < l.length → l.getD (2 * i) 0 ≠ l.getD (2 * i + 1) 0) → goodPairs l
  | [], _, _ => trivial
  | [_], h, _ => by simp at h
  | a :: b :: rest, h, hi => by
    refine ⟨?_, goodPairs_of_index rest ?_ ?_⟩
    · have := hi 0 (by simp)
      simpa using this
    · simp only [List.length_cons] at h
      omega
    · intro i hlt
      have := hi (i + 1) (by simp only [List.length_cons]; omega)
      have e1 : 2 * (i + 1) = 2 * i + 1 + 1 := by omega
      rw [e1] at this
      simpa using this

theorem index_of_goodPairs : ∀ l : List Byte, goodPairs l →
    l.length % 2 = 0 ∧
    ∀ i, 2 * i + 1 < l.length → l.getD (2 * i) 0 ≠ l.getD (2 * i + 1) 0
  | [], _ => ⟨rfl, by intro i h; simp at h⟩
  | [_], hg => absurd hg (by simp [goodPairs])
  | a :: b :: rest, hg => by
    have ih := index_of_goodPairs rest hg.2
    refine ⟨by simp only [List.length_cons]; omega, ?_⟩
    intro i hlt
    cases i with
    | zero => simpa using hg.1
    | succ k =>
      have := ih.2 k (by simp only [List.length_cons] at hlt; omega)
      have e1 : 2 * (k + 1) = 2 * k + 1 + 1 := by omega
      rw [e1]
      simpa using this

theorem playfairMenu_pairs (pf : Platform) (mode : Mode) (buf key : List Byte)
    (hk : key ≠ []) (hm : ∀ c ∈ buf, 65 ≤ c.val ∧ c.val ≤ 90 ∧ c.val ≠ 74)
    (hg : goodPairs buf) :
    playfairMenu pf mode buf key = Outcome.result (pairs mode (buildSeq pf key) buf) := by
  rw [playfairMenu_eq_N _ _ _ _ hk, filterText_id pf buf hm,
    playfairLoopN_pairs mode _ buf buf.length 0 (by omega) (by rw [List.drop_zero]; exact hg),
    List.drop_zero]

/-! ## Texts of bytes below 128 are transformed alike in every locale -/

theorem caesarChar_platform (pf : Platform) (mode : Mode) (s : Int) (c : Byte)
    (h : c.val < 128) : caesarChar pf mode s c = caesarChar cLocale mode s c := by
  unfold caesarChar
  rw [isupper_ascii pf c h, islower_ascii pf c h, charToInt_ascii pf c h,
    isupper_ascii cLocale c h, islower_ascii cLocale c h, charToInt_ascii cLocale c h]

theorem caesarMenu_platform (pf : Platform) (mode : Mode) (text : List Byte) (k : Int)
    (h : ∀ c ∈ text, c.val < 128) :
    caesarMenu pf mode text k = caesarMenu cLocale mode text k := by
  unfold caesarMenu
  apply List.map_congr_left
  intro c hc
  exact caesarChar_platform pf mode _ c (h c hc)

theorem multiAlphabetLoop_platform (pf : Platform) (mode : Mode) (text : List Byte) (i : Nat)
    (h : ∀ c ∈ text, c.val < 128) :
    multiAlphabetLoop pf mode i text = multiAlphabetLoop cLocale mode i text := by
  induction text generalizing i with
  | nil => rfl
  | cons c rest ih =>
    simp only [multiAlphabetLoop, multiAlphabetChar_eq,
      caesarChar_platform pf mode _ c (h c (List.mem_cons_self _ _)),
      ih (i + 1) (fun d hd => h d (List.mem_cons_of_mem _ hd))]

theorem vigenereChar_platform (pf : Platform) (mode : Mode) (kch c : Byte)
    (hk : kch.val < 128) (hc : c.val < 128) :
    vigenereChar pf mode kch c = vigenereChar cLocale mode kch c := by
  unfold vigenereChar vigenereShift
  rw [islower_ascii pf c hc, charToInt_ascii pf c hc, toupper_ascii pf kch hk,
    islower_ascii cLocale c hc, charToInt_ascii cLocale c hc, toupper_ascii cLocale kch hk]

theorem key_getD_lt (key : List Byte) (n : Nat) (hk : ∀ k ∈ key, k.val < 128) :
    (key.getD n 0).val < 128 := by
  rw [List.getD_eq_getElem?_getD]
  cases hn : key[n]? with
  | none => decide
  | some k => exact hk k (mem_of_getElem?_eq_some key n k hn)

theorem vigenereLoop_platform (pf : Platform) (mode : Mode) (key text : List Byte)
    (keyPos : Nat) (hk : ∀ k ∈ key, k.val < 128) (h : ∀ c ∈ text, c.val < 128) :
    vigenereLoop pf mode key keyPos text = vigenereLoop cLocale mode key keyPos text := by
  induction text generalizing keyPos with
  | nil => rfl
  | cons c rest ih =>
    have hc := h c (List.mem_cons_self _ _)
    have hrest : ∀ d ∈ rest, d.val < 128 := fun d hd => h d (List.mem_cons_of_mem _ hd)
    unfold vigenereLoop
    rw [isupper_ascii pf c hc, islower_ascii pf c hc, isupper_ascii cLocale c hc,
      islower_ascii cLocale c hc]
    simp only [vigenereChar_platform pf mode _ c (key_getD_lt key _ hk) hc, ih _ hrest]

theorem vigenereMenu_platform (pf : Platform) (mode : Mode) (text key : List Byte)
    (hk : ∀ k ∈ key, k.val < 128) (h : ∀ c ∈ text, c.val < 128) :
    vigenereMenu pf mode text key = vigenereMenu cLocale mode text key := by
  unfold vigenereMenu
  rw [vigenereLoop_platform pf mode key text 0 hk h]

/-! ## The claims -/

/-- C1, as stated, fails: after `std::setlocale(LC_ALL, "")` with code page
1251 the byte `0xC0` passes `std::isupper`; Caesar encrypt with key 3 computes
the offset `-64 - 65 = -129`, the new offset `(-129 + 3) % 26 = -22` and the
character `65 - 22 = 43`, a `+`, which Caesar decrypt copies. -/
theorem caesar_cyrillic_not_inverted :
    caesarMenu cp1251 Mode.encrypt [192] 3 = [43] ∧
    caesarMenu cp1251 Mode.decrypt [43] 3 = [43] ∧
    ([43] : List Byte) ≠ [192] := by
  decide

/-- C1, amended: in every locale, for every integer key `k` and every text in
which no byte other than an ASCII letter passes `isUpper || isLower`, Caesar
decrypt with key `k` applied to Caesar encrypt of the text with key `k`
returns the text. Every text of bytes below 128 is such a text, and in the "C"
locale every byte string is. -/
theorem caesar_decrypt_encrypt (pf : Platform) (text : List Byte) (k : Int) :
    (latinText pf text →
      caesarMenu pf Mode.decrypt (caesarMenu pf Mode.encrypt text k) k = text) ∧
    ((∀ c ∈ text, c.val < 128) →
      caesarMenu pf Mode.decrypt (caesarMenu pf Mode.encrypt text k) k = text) ∧
    caesarMenu cLocale Mode.decrypt (caesarMenu cLocale Mode.encrypt text k) k = text :=
  ⟨caesarMenu_roundtrip pf text k,
    fun h => caesarMenu_roundtrip pf text k (latinText_of_ascii pf text h),
    caesarMenu_roundtrip cLocale text k (latinText_cLocale text)⟩

/-- C1, amended, in code page 1251 at the text `"Hello, World!"`, key `-3`. -/
theorem caesar_decrypt_encrypt_witness :
    latinText cp1251 (bytes "Hello, World!") ∧
    caesarMenu cp1251 Mode.decrypt
      (caesarMenu cp1251 Mode.encrypt (bytes "Hello, World!") (-3)) (-3) =
      bytes "Hello, World!" :=
  ⟨by decide, (caesar_decrypt_encrypt cp1251 (bytes "Hello, World!") (-3)).1 (by decide)⟩

/-- C3: in every locale, with the keyword `"KEY"`, Playfair encrypt of
`"HELLO"` is `"DBNVNZ"`, of even length, and Playfair decrypt of `"DBNVNZ"` is
`"HELXOX"`, not `"HELXLO"`: after `b` is replaced by `'X'` the test of line 507
no longer sees the double letter, and the second `L` is skipped. -/
theorem playfair_hello_key (pf : Platform) :
    playfairMenu pf Mode.encrypt (bytes "HELLO") (bytes "KEY") =
      Outcome.result (bytes "DBNVNZ") ∧
    (bytes "DBNVNZ").length % 2 = 0 ∧
    playfairMenu pf Mode.decrypt (bytes "DBNVNZ") (bytes "KEY") =
      Outcome.result (bytes "HELXOX") ∧
    bytes "HELXOX" ≠ bytes "HELXLO" := by
  rw [playfairMenu_platform pf, playfairMenu_platform pf,
    playfairMenu_eq_N _ _ _ _ (by decide), playfairMenu_eq_N _ _ _ _ (by decide)]
  decide

/-- C4: for every text of length `n`, Transposition decrypt applied to
Transposition encrypt of the text is the text followed by `(4 - n % 4) % 4`
spaces; it is the text itself when `n` is a multiple of 4. -/
theorem transposition_decrypt_encrypt (text : List Byte) :
    transpositionMenu Mode.decrypt (transpositionMenu Mode.encrypt text) =
      text ++ List.replicate ((4 - text.length % 4) % 4) 32 ∧
    (text.length % 4 = 0 →
      transpositionMenu Mode.decrypt (transpositionMenu Mode.encrypt text) = text) := by
  have h : transpositionMenu Mode.decrypt (transpositionMenu Mode.encrypt text) =
      text ++ List.replicate ((4 - text.length % 4) % 4) 32 := by
    rw [transpositionMenu_eq, transpositionMenu_eq, blockwise_roundtrip]
    rfl
  refine ⟨h, ?_⟩
  intro h4
  rw [h, h4]
  simp

/-- C4 at the text `"ABCDEFGH"`, of length 8. -/
theorem transposition_decrypt_encrypt_witness :
    (bytes "ABCDEFGH").length % 4 = 0 ∧
    transpositionMenu Mode.decrypt (transpositionMenu Mode.encrypt (bytes "ABCDEFGH")) =
      bytes "ABCDEFGH" :=
  ⟨by decide, (transposition_decrypt_encrypt (bytes "ABCDEFGH")).2 (by decide)⟩

/-- C5, as stated, fails: in code page 1251 the byte `0xC0` passes
`std::isupper`; at index 0 Multi-Alphabet encrypt computes the offset `-129`,
the new offset `(-129 + 12) % 26 = -13` and the character `65 - 13 = 52`, a
`4`, which Multi-Alphabet decrypt copies. -/
theorem multiAlphabet_cyrillic_not_inverted :
    multiAlphabetMenu cp1251 Mode.encrypt [192] = [52] ∧
    multiAlphabetMenu cp1251 Mode.decrypt [52] = [52] ∧
    ([52] : List Byte) ≠ [192] := by
  decide

/-- C5, amended: in every locale, for every text in which no byte other than
an ASCII letter passes `isUpper || isLower`, Multi-Alphabet decrypt applied to
Multi-Alphabet encrypt of the text returns the text. Every text of bytes below
128 is such a text, and in the "C" locale every byte string is. -/
theorem multiAlphabet_decrypt_encrypt (pf : Platform) (text : List Byte) :
    (latinText pf text →
      multiAlphabetMenu pf Mode.decrypt (multiAlphabetMenu pf Mode.encrypt text) = text) ∧
    ((∀ c ∈ text, c.val < 128) →
      multiAlphabetMenu pf Mode.decrypt (multiAlphabetMenu pf Mode.encrypt text) = text) ∧
    multiAlphabetMenu cLocale Mode.decrypt (multiAlphabetMenu cLocale Mode.encrypt text) =
      text :=
  ⟨multiAlphabetLoop_roundtrip pf text 0,
    fun h => multiAlphabetLoop_roundtrip pf text 0 (latinText_of_ascii pf text h),
    multiAlphabetLoop_roundtrip cLocale text 0 (latinText_cLocale text)⟩

/-- C5, amended, in code page 1251 at the text `"Hello, World!"`. -/
theorem multiAlphabet_decrypt_encrypt_witness :
    latinText cp1251 (bytes "Hello, World!") ∧
    multiAlphabetMenu cp1251 Mode.decrypt
      (multiAlphabetMenu cp1251 Mode.encrypt (bytes "Hello, World!")) =
      bytes "Hello, World!" :=
  ⟨by decide, (multiAlphabet_decrypt_encrypt cp1251 (bytes "Hello, World!")).1 (by decide)⟩

/-- C6: for every text and every key byte `b`, XOR decrypt with `b` applied to
XOR encrypt of the text with `b` returns the text; the same holds with the two
modes exchanged or equal, the transform being one and the same in both modes. -/
theorem xor_decrypt_encrypt (text : List Byte) (b : Byte) :
    xorMenu Mode.decrypt (xorMenu Mode.encrypt text b) b = text ∧
    ∀ m1 m2 : Mode, xorMenu m1 (xorMenu m2 text b) b = text := by
  have h : ∀ m1 m2 : Mode, xorMenu m1 (xorMenu m2 text b) b = text := by
    intro m1 m2
    unfold xorMenu
    rw [List.map_map]
    conv_rhs => rw [← List.map_id text]
    apply List.map_congr_left
    intro c _
    exact xorChar_xorChar b c
  exact ⟨h _ _, h⟩

/-- C7: in every locale, in both modes and for every text, Vigenère and
Playfair reject the empty keyword with the invalid-key failure and compute no
result; with a non-empty keyword each of them computes a result. -/
theorem empty_keyword_rejected (pf : Platform) (mode : Mode) (text : List Byte) :
    vigenereMenu pf mode text [] = Outcome.rejected CipherError.invalidKey ∧
    playfairMenu pf mode text [] = Outcome.rejected CipherError.invalidKey ∧
    ∀ key : List Byte, key ≠ [] →
      (∃ out, vigenereMenu pf mode text key = Outcome.result out) ∧
      (∃ out, playfairMenu pf mode text key = Outcome.result out) := by
  refine ⟨rfl, rfl, ?_⟩
  intro key hk
  exact ⟨⟨_, vigenereMenu_result pf mode text key hk⟩,
    ⟨_, playfairMenu_eq_N pf mode text key hk⟩⟩

/-- C7 in code page 1251 at the text `"HELLO"` and the keyword `"KEY"`, in
encrypt mode. -/
theorem empty_keyword_rejected_witness :
    bytes "KEY" ≠ [] ∧
    (∃ out, vigenereMenu cp1251 Mode.encrypt (bytes "HELLO") (bytes "KEY") =
      Outcome.result out) ∧
    (∃ out, playfairMenu cp1251 Mode.encrypt (bytes "HELLO") (bytes "KEY") =
      Outcome.result out) :=
  ⟨by decide,
    (empty_keyword_rejected cp1251 Mode.encrypt (bytes "HELLO")).2.2 (bytes "KEY")
      (by decide)⟩

/-- C8: in every locale and for every keyword, `buildPlayfairTable` builds a
sequence `seq` of exactly 25 characters, so each of the 25 reads `seq[k]` is
inside `seq` and fills the cell `table[k / 5][k % 5]`; the table is a
rearrangement of the 25 letters `A..Z` without `J`: each of them is in exactly
one cell, `J` in none. -/
theorem buildPlayfairTable_letters (pf : Platform) (key : List Byte) :
    (buildSeq pf key).length = 25 ∧
    buildPlayfairTable pf key = some (buildSeq pf key) ∧
    (∀ k, k < 25 → ∃ x, (buildSeq pf key)[k]? = some x ∧
      cell (buildSeq pf key) (k / 5) (k % 5) = x) ∧
    (buildSeq pf key).Perm alphabet25 ∧
    (∀ x : Byte, 65 ≤ x.val → x.val ≤ 90 → x.val ≠ 74 →
      (buildSeq pf key).count x = 1 ∧
      ∃ r c, r < 5 ∧ c < 5 ∧ cell (buildSeq pf key) r c = x ∧
        ∀ r2 c2, r2 < 5 → c2 < 5 → cell (buildSeq pf key) r2 c2 = x → r2 = r ∧ c2 = c) ∧
    (buildSeq pf key).count 74 = 0 := by
  have hlen := buildSeq_length pf key
  have hperm := buildSeq_perm pf key
  have hnd : (buildSeq pf key).Nodup := (buildSeq_inv pf key).nodup
  refine ⟨hlen, buildPlayfairTable_eq pf key, ?_, hperm, ?_, ?_⟩
  · intro k hk
    have hlt : k < (buildSeq pf key).length := by omega
    have hidx : 5 * (k / 5) + k % 5 = k := by omega
    refine ⟨(buildSeq pf key)[k], List.getElem?_eq_getElem hlt, ?_⟩
    rw [cell_eq_getElem _ _ _ (by omega)]
    simp only [hidx]
  · intro x h1 h2 h3
    have hx : x ∈ buildSeq pf key := hperm.mem_iff.2 ((mem_alphabet25 x).2 ⟨h1, h2, h3⟩)
    exact ⟨List.count_eq_one_of_mem hnd hx, unique_cell _ hlen hnd x hx⟩
  · apply List.count_eq_zero_of_not_mem
    intro hm
    have := (mem_alphabet25 74).1 (hperm.mem_iff.1 hm)
    exact this.2.2 rfl

/-- C8 in code page 1251 at the keyword `"KEY"` and the letter `A`. -/
theorem buildPlayfairTable_letters_witness :
    (buildSeq cp1251 (bytes "KEY")).count 65 = 1 ∧
    ∃ r c, r < 5 ∧ c < 5 ∧ cell (buildSeq cp1251 (bytes "KEY")) r c = 65 ∧
      ∀ r2 c2, r2 < 5 → c2 < 5 → cell (buildSeq cp1251 (bytes "KEY")) r2 c2 = 65 →
        r2 = r ∧ c2 = c :=
  (buildPlayfairTable_letters cp1251 (bytes "KEY")).2.2.2.2.1 65 (by decide) (by decide)
    (by decide)

/-- C9, as stated, fails: in code page 1251 the byte `0xC0`, which is none of
`A..Z`, `a..z`, passes `std::isupper`, and the Caesar (key 3), Multi-Alphabet
and Vigenère (keyword `"A"`) transforms put `+`, `4` and `(` in its place. -/
theorem cyrillic_byte_rewritten :
    asciiLetter 192 = false ∧
    caesarMenu cp1251 Mode.encrypt [192] 3 = [43] ∧
    multiAlphabetMenu cp1251 Mode.encrypt [192] = [52] ∧
    vigenereMenu cp1251 Mode.encrypt [192] (bytes "A") = Outcome.result [40] := by
  decide

/-- C9, amended: in every locale and both modes, for every text and every key,
the Caesar, Multi-Alphabet and Vigenère (non-empty keyword) transforms return
an output as long as the text, and every position that holds in the text a
byte that does not pass `isUpper || isLower` holds the same byte in the
output. Such are, in every locale, the bytes below 128 other than `A..Z` and
`a..z` (punctuation, digits, spaces), and in the "C" locale every byte other
than `A..Z` and `a..z`. -/
theorem non_letters_unchanged (pf : Platform) (mode : Mode) (text : List Byte) :
    (∀ k : Int, (caesarMenu pf mode text k).length = text.length ∧
      ∀ (i : Nat) (c : Byte), text[i]? = some c → isLetter pf c = false →
        (caesarMenu pf mode text k)[i]? = some c) ∧
    ((multiAlphabetMenu pf mode text).length = text.length ∧
      ∀ (i : Nat) (c : Byte), text[i]? = some c → isLetter pf c = false →
        (multiAlphabetMenu pf mode text)[i]? = some c) ∧
    (∀ key : List Byte, key ≠ [] →
      ∃ out, vigenereMenu pf mode text key = Outcome.result out ∧
        out.length = text.length ∧
        ∀ (i : Nat) (c : Byte), text[i]? = some c → isLetter pf c = false →
          out[i]? = some c) ∧
    (∀ c : Byte, c.val < 128 → asciiLetter c = false → isLetter pf c = false) ∧
    (∀ c : Byte, asciiLetter c = false → isLetter cLocale c = false) := by
  refine ⟨?_, ⟨?_, ?_⟩, ?_, ?_, ?_⟩
  · intro k
    refine ⟨by simp [caesarMenu], ?_⟩
    intro i c h hc
    simp only [caesarMenu, List.getElem?_map, h, Option.map_some']
    rw [caesarChar_other _ _ _ _ hc]
  · exact multiAlphabetLoop_length pf mode text 0
  · intro i c h hc
    exact multiAlphabetLoop_frame pf mode text 0 i c h hc
  · intro key hk
    refine ⟨vigenereLoop pf mode key 0 text, vigenereMenu_result pf mode text key hk,
      vigenereLoop_length pf mode key text 0, ?_⟩
    intro i c h hc
    exact vigenereLoop_frame pf mode key text 0 i c h hc
  · intro c hlt hc
    rw [isLetter_ascii pf c hlt]
    exact hc
  · intro c hc
    rw [isLetter_cLocale]
    exact hc

/-- C9, amended, in code page 1251 at the text `"a-b"`, whose character 1 is
`-`, with the Caesar key 3 and the Vigenère keyword `"k"`, in encrypt mode. -/
theorem non_letters_unchanged_witness :
    ((bytes "a-b")[1]? = some 45 ∧ isLetter cp1251 45 = false ∧
      (caesarMenu cp1251 Mode.encrypt (bytes "a-b") 3)[1]? = some 45) ∧
    (multiAlphabetMenu cp1251 Mode.encrypt (bytes "a-b"))[1]? = some 45 ∧
    (bytes "k" ≠ [] ∧
      ∃ out, vigenereMenu cp1251 Mode.encrypt (bytes "a-b") (bytes "k") =
          Outcome.result out ∧
        out.length = (bytes "a-b").length ∧
        ∀ (i : Nat) (c : Byte), (bytes "a-b")[i]? = some c → isLetter cp1251 c = false →
          out[i]? = some c) :=
  ⟨⟨by decide, by decide,
      ((non_letters_unchanged cp1251 Mode.encrypt (bytes "a-b")).1 3).2 1 45 (by decide)
        (by decide)⟩,
    (non_letters_unchanged cp1251 Mode.encrypt (bytes "a-b")).2.1.2 1 45 (by decide)
      (by decide),
    by decide,
    (non_letters_unchanged cp1251 Mode.encrypt (bytes "a-b")).2.2.1 (bytes "k") (by decide)⟩

/-- C10: in every locale, for every text and every integer key `k`, with
`s = ((k mod 26) + 26) mod 26`, which is the `shift` of the code and lies in
`0..25`, Caesar encrypt puts at each position of a letter `A..Z`, `a..z` the
letter of the same case at offset `(offset + s) mod 26`, and Caesar decrypt the
letter of the same case at offset `(offset + 26 - s) mod 26`;
`encrypt("ABC", 3) = "DEF"` and `decrypt("DEF", 3) = "ABC"`. -/
theorem caesar_letter_formula (pf : Platform) (text : List Byte) (k : Int) :
    caesarShift k = (k % 26 + 26) % 26 ∧
    caesarShift k = (cRem k 26 + 26) % 26 ∧
    0 ≤ caesarShift k ∧ caesarShift k ≤ 25 ∧
    (∀ (i : Nat) (c : Byte), text[i]? = some c → asciiLetter c = true →
      ∃ e d, (caesarMenu pf Mode.encrypt text k)[i]? = some e ∧
        (caesarMenu pf Mode.decrypt text k)[i]? = some d ∧
        asciiUpper e = asciiUpper c ∧ asciiLower e = asciiLower c ∧
        asciiUpper d = asciiUpper c ∧ asciiLower d = asciiLower c ∧
        (e.val : Int) = (if asciiUpper c then 65 else 97) +
          ((c.val : Int) - (if asciiUpper c then 65 else 97) + caesarShift k) % 26 ∧
        (d.val : Int) = (if asciiUpper c then 65 else 97) +
          ((c.val : Int) - (if asciiUpper c then 65 else 97) + 26 - caesarShift k) % 26) ∧
    caesarMenu pf Mode.encrypt (bytes "ABC") 3 = bytes "DEF" ∧
    caesarMenu pf Mode.decrypt (bytes "DEF") 3 = bytes "ABC" := by
  have hs := caesarShift_range k
  have h1 : caesarShift k = (k % 26 + 26) % 26 := by
    rw [caesarShift_eq]
    omega
  have h2 : caesarShift k = (cRem k 26 + 26) % 26 := by
    rw [caesarShift_eq]
    rcases Int.lt_or_le k 0 with h | h
    · rw [cRem_of_neg h]
      omega
    · rw [cRem_of_nonneg h]
      omega
  refine ⟨h1, h2, hs.1, hs.2, ?_, ?_, ?_⟩
  · intro i c h hc
    have hce := caesarChar_class pf Mode.encrypt (caesarShift k) c hs hc
    have hcd := caesarChar_class pf Mode.decrypt (caesarShift k) c hs hc
    refine ⟨caesarChar pf Mode.encrypt (caesarShift k) c,
      caesarChar pf Mode.decrypt (caesarShift k) c,
      ?_, ?_, hce.1, hce.2, hcd.1, hcd.2, ?_, ?_⟩
    · simp only [caesarMenu, List.getElem?_map, h, Option.map_some']
    · simp only [caesarMenu, List.getElem?_map, h, Option.map_some']
    · rcases (asciiLetter_iff c).1 hc with hu | hl
      · rw [(asciiUpper_iff c).2 hu]
        exact caesarChar_upper pf Mode.encrypt _ c hs hu
      · rw [asciiUpper_false_of_lower c hl]
        exact caesarChar_lower pf Mode.encrypt _ c hs hl
    · rcases (asciiLetter_iff c).1 hc with hu | hl
      · rw [(asciiUpper_iff c).2 hu]
        have := caesarChar_upper pf Mode.decrypt _ c hs hu
        simp only at this
        simp only [if_true]
        omega
      · rw [asciiUpper_false_of_lower c hl]
        have := caesarChar_lower pf Mode.decrypt _ c hs hl
        simp only at this
        simp only [Bool.false_eq_true, if_false]
        omega
  · rw [caesarMenu_platform pf _ _ _ (by decide)]
    decide
  · rw [caesarMenu_platform pf _ _ _ (by decide)]
    decide

/-- C10 in code page 1251 at the text `"xyZ"`, key `-1`, position 2 (the
letter `Z`). -/
theorem caesar_letter_formula_witness :
    (bytes "xyZ")[2]? = some 90 ∧ asciiLetter 90 = true ∧
    ∃ e d, (caesarMenu cp1251 Mode.encrypt (bytes "xyZ") (-1))[2]? = some e ∧
      (caesarMenu cp1251 Mode.decrypt (bytes "xyZ") (-1))[2]? = some d ∧
      asciiUpper e = asciiUpper 90 ∧ asciiLower e = asciiLower 90 ∧
      asciiUpper d = asciiUpper 90 ∧ asciiLower d = asciiLower 90 ∧
      (e.val : Int) = (if asciiUpper 90 then 65 else 97) +
        (((90 : Byte).val : Int) - (if asciiUpper 90 then 65 else 97) + caesarShift (-1)) % 26 ∧
      (d.val : Int) = (if asciiUpper 90 then 65 else 97) +
        (((90 : Byte).val : Int) - (if asciiUpper 90 then 65 else 97) + 26 -
          caesarShift (-1)) % 26 :=
  ⟨by decide, by decide,
    (caesar_letter_formula cp1251 (bytes "xyZ") (-1)).2.2.2.2.1 2 90 (by decide) (by decide)⟩

/-- C11: in every locale, for every text, every integer key `k` and both
modes, the Caesar transform with key `k + 26` returns the same output as with
key `k`. -/
theorem caesar_key_period (pf : Platform) (mode : Mode) (text : List Byte) (k : Int) :
    caesarMenu pf mode text (k + 26) = caesarMenu pf mode text k := by
  have h : caesarShift (k + 26) = caesarShift k := by
    rw [caesarShift_eq, caesarShift_eq]
    omega
  unfold caesarMenu
  rw [h]

/-- C12: for every text and every key byte, XOR encrypt and XOR decrypt return
the same output, as long as the text, whose byte at each index is the byte of
the text at that index XOR the key; XOR encrypt of `"AB"` with key `0x20` is
`"ab"`, and key 0 leaves the text unchanged. -/
theorem xor_bytewise (text : List Byte) (key : Byte) :
    xorMenu Mode.encrypt text key = xorMenu Mode.decrypt text key ∧
    (∀ mode : Mode, (xorMenu mode text key).length = text.length ∧
      (∀ (i : Nat) (c : Byte), text[i]? = some c →
        ∃ d, (xorMenu mode text key)[i]? = some d ∧ d.val = c.val ^^^ key.val) ∧
      xorMenu mode text 0 = text) ∧
    xorMenu Mode.encrypt (bytes "AB") 32 = [97, 98] ∧
    [97, 98] = bytes "ab" := by
  refine ⟨rfl, ?_, by decide, by decide⟩
  intro mode
  refine ⟨by simp [xorMenu], ?_, ?_⟩
  · intro i c h
    refine ⟨xorChar key c, ?_, rfl⟩
    simp only [xorMenu, List.getElem?_map, h, Option.map_some']
  · unfold xorMenu
    conv_rhs => rw [← List.map_id text]
    apply List.map_congr_left
    intro c _
    apply Fin.ext
    simp [xorChar]

/-- C12 at the text `"AB"`, key `0x20`, index 1, in decrypt mode. -/
theorem xor_bytewise_witness :
    (bytes "AB")[1]? = some 66 ∧
    ∃ d, (xorMenu Mode.decrypt (bytes "AB") 32)[1]? = some d ∧
      d.val = (66 : Byte).val ^^^ (32 : Byte).val :=
  ⟨by decide, ((xor_bytewise (bytes "AB") 32).2.1 Mode.decrypt).2.1 1 66 (by decide)⟩

/-- C13: for every text of length `n`, Transposition encrypt returns exactly
`4 * ceil(n / 4)` characters (none for the empty text), and for every block
index `q` and every `m` in `0..3` the character `4q + m` of the output is the
character `4q + perm[m]` of the text filled with spaces to a multiple of 4;
`"ABCD"` becomes `"DBCA"` and `"ABCDE"` becomes `"DBCA   E"`. -/
theorem transposition_encrypt_positions (text : List Byte) :
    (transpositionMenu Mode.encrypt text).length = 4 * ((text.length + 3) / 4) ∧
    (padded text).length = 4 * ((text.length + 3) / 4) ∧
    transpositionMenu Mode.encrypt [] = [] ∧
    (∀ q m : Nat, m < 4 → 4 * q + m < 4 * ((text.length + 3) / 4) →
      ∃ x, (transpositionMenu Mode.encrypt text)[4 * q + m]? = some x ∧
        (padded text)[4 * q + perm.getD m 0]? = some x) ∧
    transpositionMenu Mode.encrypt (bytes "ABCD") = bytes "DBCA" ∧
    transpositionMenu Mode.encrypt (bytes "ABCDE") = bytes "DBCA   E" := by
  have hlen : (transpositionMenu Mode.encrypt text).length = 4 * ((text.length + 3) / 4) := by
    rw [transpositionMenu_eq, blockwise_length]
  refine ⟨hlen, padded_length text, ?_, ?_, ?_, ?_⟩
  · rw [transpositionMenu_eq]
    rfl
  · intro q m hm hq
    have hlt : 4 * q + m < (transpositionMenu Mode.encrypt text).length := by
      rw [hlen]
      exact hq
    refine ⟨(transpositionMenu Mode.encrypt text)[4 * q + m], List.getElem?_eq_getElem hlt, ?_⟩
    rw [← List.getElem?_eq_getElem hlt, transpositionMenu_eq]
    exact (blockwise_encrypt_getElem? text q m hm).symm
  · rw [transpositionMenu_eq]
    decide
  · rw [transpositionMenu_eq]
    decide

/-- C13 at the text `"ABCDE"`, block 1, position 3. -/
theorem transposition_encrypt_positions_witness :
    3 < 4 ∧ 4 * 1 + 3 < 4 * (((bytes "ABCDE").length + 3) / 4) ∧
    ∃ x, (transpositionMenu Mode.encrypt (bytes "ABCDE"))[4 * 1 + 3]? = some x ∧
      (padded (bytes "ABCDE"))[4 * 1 + perm.getD 3 0]? = some x :=
  ⟨by decide, by decide,
    (transposition_encrypt_positions (bytes "ABCDE")).2.2.2.1 1 3 (by decide) (by decide)⟩

/-- C14, as stated, fails: there is no text on which Transposition encrypt and
Transposition decrypt differ. -/
theorem transposition_no_differing_text :
    ¬ ∃ text : List Byte,
      transpositionMenu Mode.encrypt text ≠ transpositionMenu Mode.decrypt text := by
  rintro ⟨text, h⟩
  apply h
  rw [transpositionMenu_eq, transpositionMenu_eq, blockwise_mode]

/-- C14, amended: the permutation `[3, 1, 2, 0]` is its own inverse, so
`invPerm` equals `perm` and Transposition encrypt and Transposition decrypt
return the same output on every text. -/
theorem transposition_modes_agree (text : List Byte) :
    invPerm = perm ∧
    transpositionMenu Mode.encrypt text = transpositionMenu Mode.decrypt text := by
  refine ⟨by decide, ?_⟩
  rw [transpositionMenu_eq, transpositionMenu_eq, blockwise_mode]

/-- C15: in the buffer `"HELLO"` the characters at 2 and 3 are equal; the
digraph taken at 2 is `(L, X)`, but the next scan position is 4, not 3: the
test of line 507 compares `a` with the `b` already replaced by `'X'`, so the
second `L` never starts a digraph. In every locale, with the keyword `"KEY"`,
the text `"LL"` gives the two characters `"NV"` of the digraph `(L, X)` alone. -/
theorem playfair_double_letter_skipped (pf : Platform) :
    (bytes "HELLO")[2]? = some 76 ∧ (bytes "HELLO")[3]? = some 76 ∧
    digraphAt (bytes "HELLO") 2 = (76, 88) ∧
    nextIndex (bytes "HELLO") 2 = 4 ∧
    playfairMenu pf Mode.encrypt (bytes "LL") (bytes "KEY") = Outcome.result (bytes "NV") ∧
    playfairMenu pf Mode.encrypt (bytes "LXLX") (bytes "KEY") =
      Outcome.result (bytes "NVNV") := by
  rw [playfairMenu_platform pf, playfairMenu_platform pf,
    playfairMenu_eq_N _ _ _ _ (by decide), playfairMenu_eq_N _ _ _ _ (by decide)]
  decide

/-- C16, as stated, fails: in code page 1251 the byte `0xC0`, which is none of
`A..Z`, `a..z`, passes `std::isupper` and advances the key pointer. In the
text `[0xC0, 'A']` with the keyword `"AB"` the letter `A` is the letter number
0, for which the claim gives the shift `'A' - 'A' = 0` and the output `A`; the
code uses `key[1] = 'B'` and puts `B`. -/
theorem vigenere_cyrillic_advances_key :
    asciiLetter 192 = false ∧
    List.countP asciiLetter (List.take 1 ([192, 65] : List Byte)) = 0 ∧
    toChar (65 + cRem ((65 : Int) - 65 +
      (toupper cp1251 ((bytes "AB").getD (0 % (bytes "AB").length) 0) - 65)) 26) = 65 ∧
    vigenereMenu cp1251 Mode.encrypt [192, 65] (bytes "AB") = Outcome.result [40, 66] ∧
    (65 : Byte) ≠ 66 := by
  decide

/-- C16, amended: in every locale and both modes, for every non-empty keyword
and every text in which no byte other than an ASCII letter passes
`isUpper || isLower`, the letter at position `i` of the text is transformed
with the shift `toupper(key[j % keyLen]) - 'A'`, where `j` is the number of
letters before position `i`: the key pointer starts at 0 and advances on
letters only. Two keywords whose characters have the same upper-case forms
give the same output; `encrypt("A B", "BC") = "B D"`, also with the keyword
`"bc"`. -/
theorem vigenere_key_pointer (pf : Platform) (mode : Mode) (text key : List Byte)
    (hk : key ≠ []) (hp : latinText pf text) :
    ∃ out, vigenereMenu pf mode text key = Outcome.result out ∧
      (∀ (i : Nat) (c : Byte), text[i]? = some c → asciiLetter c = true →
        out[i]? = some (toChar ((if asciiLower c then 97 else 65) +
          (match mode with
            | Mode.encrypt =>
              cRem ((c.val : Int) - (if asciiLower c then 97 else 65) +
                (toupper pf
                  (key.getD (List.countP asciiLetter (text.take i) % key.length) 0) - 65))
                26
            | Mode.decrypt =>
              cRem ((c.val : Int) - (if asciiLower c then 97 else 65) + 26 -
                (toupper pf
                  (key.getD (List.countP asciiLetter (text.take i) % key.length) 0) - 65))
                26)))) ∧
      (∀ key2 : List Byte, List.Forall₂ (fun a b => toupper pf a = toupper pf b) key key2 →
        vigenereMenu pf mode text key2 = Outcome.result out) ∧
      vigenereMenu pf Mode.encrypt (bytes "A B") (bytes "BC") = Outcome.result (bytes "B D") ∧
      vigenereMenu pf Mode.encrypt (bytes "A B") (bytes "bc") =
        Outcome.result (bytes "B D") := by
  refine ⟨vigenereLoop pf mode key 0 text, vigenereMenu_result pf mode text key hk, ?_, ?_,
    ?_, ?_⟩
  · intro i c h hc
    have hlt := asciiLetter_lt c hc
    rw [vigenereLoop_getElem? pf mode key text 0 i c h (isLetter_of_asciiLetter pf c hc),
      Nat.zero_add, latinText_countP pf text i hp]
    unfold vigenereChar vigenereShift
    rw [islower_ascii pf c hlt, charToInt_ascii pf c hlt]
  · intro key2 h2
    have hk2 : key2 ≠ [] := by
      cases h2 with
      | nil => exact absurd rfl hk
      | cons _ _ => exact List.cons_ne_nil _ _
    rw [vigenereMenu_result pf mode text key2 hk2,
      vigenereLoop_key_case pf mode key key2 text 0 h2]
  · rw [vigenereMenu_platform pf _ _ _ (by decide) (by decide)]
    decide
  · rw [vigenereMenu_platform pf _ _ _ (by decide) (by decide)]
    decide

/-- C16, amended, in code page 1251 at the text `"A B"` and the keyword
`"BC"`, in encrypt mode. -/
theorem vigenere_key_pointer_witness :
    bytes "BC" ≠ [] ∧ latinText cp1251 (bytes "A B") ∧
    ∃ out, vigenereMenu cp1251 Mode.encrypt (bytes "A B") (bytes "BC") =
        Outcome.result out ∧
      out[2]? = some 68 :=
  ⟨by decide, by decide, by
    obtain ⟨out, h1, h2, _⟩ :=
      vigenere_key_pointer cp1251 Mode.encrypt (bytes "A B") (bytes "BC") (by decide)
        (by decide)
    refine ⟨out, h1, ?_⟩
    rw [h2 2 66 (by decide) (by decide)]
    decide⟩

/-- C17, as stated, fails: in code page 1251 the byte `0xC0`, which is none of
`A..Z`, `a..z`, passes `std::isupper`, and Multi-Alphabet encrypt puts the
character `4` in its place instead of leaving it unchanged. -/
theorem multiAlphabet_cyrillic_rewritten :
    asciiLetter 192 = false ∧ ([192] : List Byte)[0]? = some 192 ∧
    (multiAlphabetMenu cp1251 Mode.encrypt [192])[0]? = some 52 ∧
    (52 : Byte) ≠ 192 := by
  decide

/-- C17, amended: in every locale, for every text, Multi-Alphabet encrypt puts
at the position `i` of a letter `A..Z`, `a..z` the letter of the same case at
offset `(offset + table[i % 4]) mod 26`, and Multi-Alphabet decrypt the one at
offset `(offset + (26 - table[i % 4])) mod 26`, with `table = [12, 5, 9, 21]`
and `i` counting every character; a byte that does not pass
`isUpper || isLower` (every byte below 128 other than `A..Z`, `a..z`) is
unchanged; `encrypt("A A") = "M J"`. -/
theorem multiAlphabet_letter_formula (pf : Platform) (text : List Byte) :
    shifts = [12, 5, 9, 21] ∧
    (∀ (i : Nat) (c : Byte), text[i]? = some c → asciiLetter c = true →
      ∃ e d, (multiAlphabetMenu pf Mode.encrypt text)[i]? = some e ∧
        (multiAlphabetMenu pf Mode.decrypt text)[i]? = some d ∧
        asciiUpper e = asciiUpper c ∧ asciiLower e = asciiLower c ∧
        asciiUpper d = asciiUpper c ∧ asciiLower d = asciiLower c ∧
        (e.val : Int) = (if asciiUpper c then 65 else 97) +
          ((c.val : Int) - (if asciiUpper c then 65 else 97) + shifts.getD (i % 4) 0) % 26 ∧
        (d.val : Int) = (if asciiUpper c then 65 else 97) +
          ((c.val : Int) - (if asciiUpper c then 65 else 97) +
            (26 - shifts.getD (i % 4) 0)) % 26) ∧
    (∀ (mode : Mode) (i : Nat) (c : Byte), text[i]? = some c → isLetter pf c = false →
      (multiAlphabetMenu pf mode text)[i]? = some c) ∧
    (∀ (mode : Mode) (i : Nat) (c : Byte), text[i]? = some c → c.val < 128 →
      asciiLetter c = false → (multiAlphabetMenu pf mode text)[i]? = some c) ∧
    multiAlphabetMenu pf Mode.encrypt (bytes "A A") = bytes "M J" := by
  refine ⟨rfl, ?_, ?_, ?_, ?_⟩
  · intro i c h hc
    have hs := shifts_range i
    have hce := caesarChar_class pf Mode.encrypt (shifts.getD (i % 4) 0) c hs hc
    have hcd := caesarChar_class pf Mode.decrypt (shifts.getD (i % 4) 0) c hs hc
    refine ⟨caesarChar pf Mode.encrypt (shifts.getD (i % 4) 0) c,
      caesarChar pf Mode.decrypt (shifts.getD (i % 4) 0) c,
      ?_, ?_, hce.1, hce.2, hcd.1, hcd.2, ?_, ?_⟩
    · unfold multiAlphabetMenu
      rw [multiAlphabetLoop_getElem? _ _ text 0 i c h, Nat.zero_add, multiAlphabetChar_eq]
    · unfold multiAlphabetMenu
      rw [multiAlphabetLoop_getElem? _ _ text 0 i c h, Nat.zero_add, multiAlphabetChar_eq]
    · rcases (asciiLetter_iff c).1 hc with hu | hl
      · rw [(asciiUpper_iff c).2 hu]
        exact caesarChar_upper pf Mode.encrypt _ c hs hu
      · rw [asciiUpper_false_of_lower c hl]
        exact caesarChar_lower pf Mode.encrypt _ c hs hl
    · rcases (asciiLetter_iff c).1 hc with hu | hl
      · rw [(asciiUpper_iff c).2 hu]
        exact caesarChar_upper pf Mode.decrypt _ c hs hu
      · rw [asciiUpper_false_of_lower c hl]
        exact caesarChar_lower pf Mode.decrypt _ c hs hl
  · intro mode i c h hc
    exact multiAlphabetLoop_frame pf mode text 0 i c h hc
  · intro mode i c h hlt hc
    apply multiAlphabetLoop_frame pf mode text 0 i c h
    rw [isLetter_ascii pf c hlt]
    exact hc
  · unfold multiAlphabetMenu
    rw [multiAlphabetLoop_platform pf _ _ _ (by decide)]
    decide

/-- C17, amended, in code page 1251 at the text `"A A"`, position 2 (a letter)
and position 1 (a space). -/
theorem multiAlphabet_letter_formula_witness :
    ((bytes "A A")[2]? = some 65 ∧ asciiLetter 65 = true ∧
      (multiAlphabetMenu cp1251 Mode.encrypt (bytes "A A"))[2]? = some 74) ∧
    ((bytes "A A")[1]? = some 32 ∧ isLetter cp1251 32 = false ∧
      (multiAlphabetMenu cp1251 Mode.decrypt (bytes "A A"))[1]? = some 32) :=
  ⟨⟨by decide, by decide, by
      obtain ⟨e, d, h1, _, _, _, _, _, h3, _⟩ :=
        (multiAlphabet_letter_formula cp1251 (bytes "A A")).2.1 2 65 (by decide) (by decide)
      rw [h1]
      have h4 : (e.val : Int) = 74 := by
        rw [h3]
        decide
      have h5 : e = 74 := by
        apply Fin.ext
        have : e.val = 74 := by omega
        simpa using this
      rw [h5]⟩,
    by decide, by decide,
    (multiAlphabet_letter_formula cp1251 (bytes "A A")).2.2.1 Mode.decrypt 1 32 (by decide)
      (by decide)⟩

/-- C20: in every locale, for every non-empty keyword and every buffer of
letters `A..Z` without `J`, of even length, whose aligned digraphs (positions
`2i`, `2i + 1`) are each made of two different letters, Playfair encrypt
returns an output of the same length whose aligned digraphs are again each
made of two different letters, and Playfair decrypt of that output with the
same keyword returns the buffer. -/
theorem playfair_decrypt_encrypt (pf : Platform) (buf key : List Byte) (hk : key ≠ [])
    (hm : ∀ c ∈ buf, 65 ≤ c.val ∧ c.val ≤ 90 ∧ c.val ≠ 74)
    (heven : buf.length % 2 = 0)
    (hd : ∀ i, 2 * i + 1 < buf.length → buf.getD (2 * i) 0 ≠ buf.getD (2 * i + 1) 0) :
    ∃ out, playfairMenu pf Mode.encrypt buf key = Outcome.result out ∧
      out.length = buf.length ∧
      (∀ i, 2 * i + 1 < out.length → out.getD (2 * i) 0 ≠ out.getD (2 * i + 1) 0) ∧
      playfairMenu pf Mode.decrypt out key = Outcome.result buf := by
  have hg := goodPairs_of_index buf heven hd
  have hmem : ∀ c ∈ buf, c ∈ buildSeq pf key :=
    fun c hc => (buildSeq_perm pf key).mem_iff.2 ((mem_alphabet25 c).2 (hm c hc))
  obtain ⟨hg2, hm2, hlen2, hrt⟩ := pairs_roundtrip (buildSeq pf key) (buildSeq_length pf key)
    (buildSeq_inv pf key).nodup buf hmem hg
  have hm3 : ∀ c ∈ pairs Mode.encrypt (buildSeq pf key) buf,
      65 ≤ c.val ∧ c.val ≤ 90 ∧ c.val ≠ 74 :=
    fun c hc => (mem_alphabet25 c).1 ((buildSeq_perm pf key).mem_iff.1 (hm2 c hc))
  refine ⟨pairs Mode.encrypt (buildSeq pf key) buf,
    playfairMenu_pairs pf _ buf key hk hm hg, hlen2, (index_of_goodPairs _ hg2).2, ?_⟩
  rw [playfairMenu_pairs pf _ _ key hk hm3 hg2, hrt]

/-- C20 in code page 1251 at the buffer `"HELXLO"` and the keyword `"KEY"`. -/
theorem playfair_decrypt_encrypt_witness :
    bytes "KEY" ≠ [] ∧ (bytes "HELXLO").length % 2 = 0 ∧
    ∃ out, playfairMenu cp1251 Mode.encrypt (bytes "HELXLO") (bytes "KEY") =
        Outcome.result out ∧
      out.length = (bytes "HELXLO").length ∧
      (∀ i, 2 * i + 1 < out.length → out.getD (2 * i) 0 ≠ out.getD (2 * i + 1) 0) ∧
      playfairMenu cp1251 Mode.decrypt out (bytes "KEY") = Outcome.result (bytes "HELXLO") :=
  ⟨by decide, by decide,
    playfair_decrypt_encrypt cp1251 (bytes "HELXLO") (bytes "KEY") (by decide) (by decide)
      (by decide)
      (by
        intro i hi
        have h3 : i < 3 := by
          have : (bytes "HELXLO").length = 6 := by decide
          omega
        interval_cases i <;> decide)⟩

end Cryptor
